import Mathlib

/-!
# Verification of the generalized tic-tac-toe core (`tictactoe.py`)

Shallow embedding of the board data model (`GameBoard`), the win-detection
scan (`get_winner` and its helpers), move application (`insert_symbol`),
and the minimax search with alpha-beta pruning (`eval_play`, `ai_plays`),
together with spec-level predicates (runs along rows, columns and all
diagonals) used to compare the implementation against its specification.
-/

set_option maxHeartbeats 1000000

namespace TicTacToe

/-- A board cell: empty (`" "` in the source), `"X"` or `"O"`. -/
inductive Cell where
  | Empty : Cell
  | X : Cell
  | O : Cell
deriving DecidableEq, Repr

open Cell

/-- Swap the two player symbols, fixing `Empty` (used for symmetry lemmas). -/
def flipCell : Cell → Cell
  | Cell.Empty => Cell.Empty
  | Cell.X => Cell.O
  | Cell.O => Cell.X

/-- Models `GameBoard.__init__`, which stores the dimensions, the win length and the grid
(`game_board` is a list of rows, each row a list of cells). -/
structure GameBoard where
  no_columns : Nat
  no_rows : Nat
  number_to_win : Nat
  game_board : List (List Cell)
deriving DecidableEq, Repr

/-- Models `GameBoard(no_columns, no_rows, number_to_win)`: all cells start empty. -/
def GameBoard.init (no_columns no_rows number_to_win : Nat) : GameBoard :=
  ⟨no_columns, no_rows, number_to_win,
    List.replicate no_rows (List.replicate no_columns Cell.Empty)⟩

/-- Well-formedness: the grid really is `no_rows × no_columns`.  Boards
produced by `GameBoard.init` satisfy this and every operation preserves it. -/
def wf (b : GameBoard) : Prop :=
  b.game_board.length = b.no_rows ∧ ∀ row ∈ b.game_board, row.length = b.no_columns

instance (b : GameBoard) : Decidable (wf b) := by
  unfold wf; infer_instance

/-- Reads `self.game_board[row][column]` for in-range nonnegative indices. -/
def cellAt (b : GameBoard) (r c : Nat) : Cell :=
  (b.game_board.getD r []).getD c Cell.Empty

/-- Performs `board.game_board[r][c] = p` (list item assignment with in-range
nonnegative indices, as done in `eval_play` / `ai_plays` on a deep copy). -/
def setCellB (b : GameBoard) (r c : Nat) (p : Cell) : GameBoard :=
  { b with game_board := b.game_board.set r ((b.game_board.getD r []).set c p) }

/-- Constant `GameBoard.PLAYER_X_WON`. -/
def PLAYER_X_WON : Int := 100
/-- Constant `GameBoard.PLAYER_O_WON`. -/
def PLAYER_O_WON : Int := -100
/-- Constant `GameBoard.NO_ONE_WON`. -/
def NO_ONE_WON : Int := 0

/-- The counter scan the source repeats in `_examine_row`, `_examine_column`
and the four diagonal walkers: seeing `X` increments the X counter and resets
the O counter, symmetrically for `O`, an empty cell resets both; when a
counter reaches `number_to_win` the corresponding constant is returned at
once, otherwise the scan continues and ends with `NO_ONE_WON`. -/
def examine_line (number_to_win : Nat) : List Cell → Nat → Nat → Int
  | [], _, _ => NO_ONE_WON
  | e :: rest, number_of_x, number_of_o =>
    let nx := if e = Cell.X then number_of_x + 1 else 0
    let no := if e = Cell.O then number_of_o + 1 else 0
    if nx = number_to_win then PLAYER_X_WON
    else if no = number_to_win then PLAYER_O_WON
    else examine_line number_to_win rest nx no

/-- Models `GameBoard._examine_row`. -/
def examine_row (b : GameBoard) (row : List Cell) : Int :=
  examine_line b.number_to_win row 0 0

/-- Models `GameBoard._examine_rows`: sums the per-row results. -/
def examine_rows (b : GameBoard) : Int :=
  (b.game_board.map (fun row => examine_row b row)).sum

/-- The cells of column `column_index`, in the order `_examine_column`
visits them (top to bottom). -/
def columnCells (b : GameBoard) (column_index : Nat) : List Cell :=
  b.game_board.map (fun row => row.getD column_index Cell.Empty)

/-- Models `GameBoard._examine_column`. -/
def examine_column (b : GameBoard) (column_index : Nat) : Int :=
  examine_line b.number_to_win (columnCells b column_index) 0 0

/-- Models `GameBoard._examine_columns`: sums the per-column results. -/
def examine_columns (b : GameBoard) : Int :=
  ((List.range b.no_columns).map (fun ci => examine_column b ci)).sum

/-- Structural helper for `diagCellsLR`: the first argument is the exact
number of remaining loop steps, `no_columns - i`, which the walk maintains
invariantly, so the `0` case coincides with the loop guard failing. -/
def diagWalkLR (b : GameBoard) : Nat → Nat → Nat → List Cell
  | 0, _, _ => []
  | fuel + 1, i, j =>
    if i < b.no_columns ∧ j < b.no_rows then
      cellAt b j i :: diagWalkLR b fuel (i + 1) (j + 1)
    else []

/-- The cells visited by the `while i < self.no_columns and j < self.no_rows`
walk of the left-to-right diagonal starting at row `j`, column `i`
(step `i += 1; j += 1`). -/
def diagCellsLR (b : GameBoard) (i j : Nat) : List Cell :=
  diagWalkLR b (b.no_columns - i) i j

/-- Structural helper for `diagCellsRL`: the first argument is the exact
number of remaining loop steps, `no_rows - j`. -/
def diagWalkRL (b : GameBoard) : Nat → Int → Nat → List Cell
  | 0, _, _ => []
  | fuel + 1, i, j =>
    if 0 ≤ i ∧ j < b.no_rows then
      cellAt b j i.toNat :: diagWalkRL b fuel (i - 1) (j + 1)
    else []

/-- The cells visited by the `while i >= 0 and j < self.no_rows` walk of the
right-to-left diagonal starting at row `j`, column `i` (step `i -= 1; j += 1`). -/
def diagCellsRL (b : GameBoard) (i : Int) (j : Nat) : List Cell :=
  diagWalkRL b (b.no_rows - j) i j

/-- The walk `diagCellsLR` satisfies the loop's defining equation. -/
theorem diagCellsLR_unfold (b : GameBoard) (i j : Nat) :
    diagCellsLR b i j =
      if i < b.no_columns ∧ j < b.no_rows then
        cellAt b j i :: diagCellsLR b (i + 1) (j + 1)
      else [] := by
  unfold diagCellsLR
  cases hf : b.no_columns - i with
  | zero =>
    have : ¬(i < b.no_columns ∧ j < b.no_rows) := by
      rintro ⟨h1, _⟩; omega
    simp [diagWalkLR, this]
  | succ f =>
    have hfe : b.no_columns - (i + 1) = f := by omega
    simp [diagWalkLR, hfe]

/-- The walk `diagCellsRL` satisfies the loop's defining equation. -/
theorem diagCellsRL_unfold (b : GameBoard) (i : Int) (j : Nat) :
    diagCellsRL b i j =
      if 0 ≤ i ∧ j < b.no_rows then
        cellAt b j i.toNat :: diagCellsRL b (i - 1) (j + 1)
      else [] := by
  unfold diagCellsRL
  cases hf : b.no_rows - j with
  | zero =>
    have : ¬(0 ≤ i ∧ j < b.no_rows) := by
      rintro ⟨_, h2⟩; omega
    simp [diagWalkRL, this]
  | succ f =>
    have hfe : b.no_rows - (j + 1) = f := by omega
    simp [diagWalkRL, hfe]

/-- First nonzero scan result, `0` when none: the diagonal examiners return
`PLAYER_X_WON`/`PLAYER_O_WON` from inside the loop as soon as one diagonal
scan reports it, and `NO_ONE_WON` after the loop otherwise. -/
def firstNonzero : List Int → Int
  | [] => 0
  | r :: rest => if r ≠ 0 then r else firstNonzero rest

/-- The diagonals scanned by `_left_to_right_upper_diag(max_start_column)`:
`for i in range(0, max_start_column)`, start cell `(0, i)`. -/
def lrUpperLines (b : GameBoard) (max_start_column : Int) : List (List Cell) :=
  (List.range max_start_column.toNat).map (fun i => diagCellsLR b i 0)

/-- Models `GameBoard._left_to_right_upper_diag`. -/
def left_to_right_upper_diag (b : GameBoard) (max_start_column : Int) : Int :=
  firstNonzero ((lrUpperLines b max_start_column).map
    (fun l => examine_line b.number_to_win l 0 0))

/-- The diagonals scanned by `_left_to_right_lower_diag(max_start_row)`:
`for j in range(1, max_start_row)`, start cell `(j, 0)`. -/
def lrLowerLines (b : GameBoard) (max_start_row : Int) : List (List Cell) :=
  (List.range (max_start_row - 1).toNat).map (fun j => diagCellsLR b 0 (j + 1))

/-- Models `GameBoard._left_to_right_lower_diag`. -/
def left_to_right_lower_diag (b : GameBoard) (max_start_row : Int) : Int :=
  firstNonzero ((lrLowerLines b max_start_row).map
    (fun l => examine_line b.number_to_win l 0 0))

/-- The diagonals scanned by `_right_to_left_upper_diag(max_start_column)`:
`for i in range(self.no_columns - 1, max_start_column - 1, -1)`, start cell
`(0, i)` walking down-left. -/
def rlUpperLines (b : GameBoard) (max_start_column : Int) : List (List Cell) :=
  (List.range ((b.no_columns : Int) - max_start_column).toNat).map
    (fun k => diagCellsRL b ((b.no_columns : Int) - 1 - k) 0)

/-- Models `GameBoard._right_to_left_upper_diag`. -/
def right_to_left_upper_diag (b : GameBoard) (max_start_column : Int) : Int :=
  firstNonzero ((rlUpperLines b max_start_column).map
    (fun l => examine_line b.number_to_win l 0 0))

/-- The diagonals scanned by `_right_to_left_lower_diag(max_start_row)`:
`for j in range(1, max_start_row)`, start cell `(j, no_columns - 1)` walking
down-left. -/
def rlLowerLines (b : GameBoard) (max_start_row : Int) : List (List Cell) :=
  (List.range (max_start_row - 1).toNat).map
    (fun j => diagCellsRL b ((b.no_columns : Int) - 1) (j + 1))

/-- Models `GameBoard._right_to_left_lower_diag`. -/
def right_to_left_lower_diag (b : GameBoard) (max_start_row : Int) : Int :=
  firstNonzero ((rlLowerLines b max_start_row).map
    (fun l => examine_line b.number_to_win l 0 0))

/-- Models `GameBoard._examine_diagonals`: computes the two cut-offs and sums the
four directional results. -/
def examine_diagonals (b : GameBoard) : Int :=
  left_to_right_upper_diag b ((b.no_columns : Int) - b.number_to_win + 1) +
  left_to_right_lower_diag b ((b.no_rows : Int) - b.number_to_win + 1) +
  right_to_left_upper_diag b ((b.no_columns : Int) - b.number_to_win + 1) +
  right_to_left_lower_diag b ((b.no_rows : Int) - b.number_to_win + 1)

/-- Models `GameBoard.get_winner`: sums the row, column and diagonal results. -/
def get_winner (b : GameBoard) : Int :=
  examine_rows b + examine_columns b + examine_diagonals b

/-- Models `GameBoard.is_every_field_filled`. -/
def is_every_field_filled (b : GameBoard) : Bool :=
  b.game_board.all (fun row => row.all (fun e => e ≠ Cell.Empty))

/-- Python sequence index resolution: a negative index counts from the end,
out-of-range raises `IndexError` (modelled as `none`). -/
def pyIdx (n : Nat) (i : Int) : Option Nat :=
  let j : Int := if i < 0 then i + n else i
  if 0 ≤ j ∧ j < n then some j.toNat else none

/-- Python read `l[i]`. -/
def pyGet {α : Type} (l : List α) (i : Int) : Option α :=
  (pyIdx l.length i).bind (fun k => l.get? k)

/-- Python assignment `l[i] = x`. -/
def pySet {α : Type} (l : List α) (i : Int) (x : α) : Option (List α) :=
  (pyIdx l.length i).map (fun k => l.set k x)

/-- Models `GameBoard.insert_symbol(row, column, symbol)`.  The source only rejects
indices that are too large (`row >= self.no_rows or column >= self.no_columns`);
otherwise it indexes the Python lists directly, so negative indices address
cells from the end of the grid, and an `IndexError` (index below `-len`) is
modelled as `none`.  `some (b', ok)` models a normal return of `ok` with the
board left as `b'`. -/
def insert_symbol (b : GameBoard) (row column : Int) (symbol : Cell) :
    Option (GameBoard × Bool) :=
  if (b.no_rows : Int) ≤ row ∨ (b.no_columns : Int) ≤ column then some (b, false)
  else
    match pyGet b.game_board row with
    | none => none
    | some boardRow =>
      match pyGet boardRow column with
      | none => none
      | some cell =>
        if cell ≠ Cell.Empty then some (b, false)
        else
          match pySet boardRow column symbol with
          | none => none
          | some newRow =>
            match pySet b.game_board row newRow with
            | none => none
            | some newRows => some ({ b with game_board := newRows }, true)

/-- Models `GameBoard.__iter__`: every `(row_index, column_index)` pair in row-major
order (the yielded element is `cellAt` at that pair). -/
def cellsList (b : GameBoard) : List (Nat × Nat) :=
  (List.range b.no_rows).flatMap
    (fun r => (List.range b.no_columns).map (fun c => (r, c)))

/-- Number of empty cells seen by the row-major iteration; used as recursion
fuel for `eval_play` (the Python recursion consumes one empty cell per level). -/
def emptyCount (b : GameBoard) : Nat :=
  ((cellsList b).filter (fun rc => cellAt b rc.1 rc.2 = Cell.Empty)).length

/-- Models `next_player = "X" if player == "O" else "O"`. -/
def nextPlayer : Cell → Cell
  | Cell.O => Cell.X
  | _ => Cell.O

/-- Constant `Game.MAX_DEPTH`. -/
def MAX_DEPTH : Nat := 50

/-- The maximizing `for` loop of `eval_play` (`player == "X"` branch): walk
the cells in row-major order, recurse on each empty one, keep the running
maximum and update `alpha`, breaking as soon as `beta <= alpha`. -/
def maxLoop (evalChild : GameBoard → Int → Int → Int) (b : GameBoard) (player : Cell) :
    List (Nat × Nat) → Int → Int → Int → Int
  | [], _, _, max_eval => max_eval
  | (r, c) :: rest, alpha, beta, max_eval =>
    if cellAt b r c = Cell.Empty then
      let next_board := setCellB b r c player
      let eval_param := evalChild next_board alpha beta
      let max_eval' := max max_eval eval_param
      let alpha' := max alpha eval_param
      if beta ≤ alpha' then max_eval'
      else maxLoop evalChild b player rest alpha' beta max_eval'
    else maxLoop evalChild b player rest alpha beta max_eval

/-- The minimizing `for` loop of `eval_play` (`else` branch): symmetric,
updating `beta` and the running minimum. -/
def minLoop (evalChild : GameBoard → Int → Int → Int) (b : GameBoard) (player : Cell) :
    List (Nat × Nat) → Int → Int → Int → Int
  | [], _, _, min_eval => min_eval
  | (r, c) :: rest, alpha, beta, min_eval =>
    if cellAt b r c = Cell.Empty then
      let next_board := setCellB b r c player
      let eval_param := evalChild next_board alpha beta
      let min_eval' := min min_eval eval_param
      let beta' := min beta eval_param
      if beta' ≤ alpha then min_eval'
      else minLoop evalChild b player rest alpha beta' min_eval'
    else minLoop evalChild b player rest alpha beta min_eval

/-- Models `Game.eval_play`, with explicit recursion fuel.  Each recursive call of
the source fills one empty cell, so the recursion depth is bounded by the
number of empty cells; with `fuel ≥ emptyCount b + 1` the `0` branch is never
taken and the function computes exactly the source's recursion. -/
def eval_fuel : Nat → GameBoard → Cell → Nat → Int → Int → Int
  | 0, _, _, _, _, _ => 0
  | fuel + 1, board, player, depth, alpha, beta =>
    let who_is_winner := get_winner board
    if who_is_winner ≠ 0 then who_is_winner
    else if is_every_field_filled board then 0
    else if MAX_DEPTH < depth then 0
    else if player = Cell.X then
      maxLoop (fun nb a bt => eval_fuel fuel nb (nextPlayer player) (depth + 1) a bt)
        board player (cellsList board) alpha beta (-999999)
    else
      minLoop (fun nb a bt => eval_fuel fuel nb (nextPlayer player) (depth + 1) a bt)
        board player (cellsList board) alpha beta 999999

/-- Models `Game.eval_play(board, player, depth, alpha, beta)`. -/
def eval_play (board : GameBoard) (player : Cell) (depth : Nat) (alpha beta : Int) : Int :=
  eval_fuel (emptyCount board + 1) board player depth alpha beta

/-- Python's `min(list, key=...)` fold: keep the current best, replacing it
only on a strictly smaller key, so the first minimum wins. -/
def pyMinFold {α : Type} (key : α → Int) (cur : α) : List α → α
  | [] => cur
  | x :: rest => pyMinFold key (if key x < key cur then x else cur) rest

/-- Python's `min(list, key=...)`: raises `ValueError` on an empty list
(modelled as `none`). -/
def pyMin {α : Type} (key : α → Int) : List α → Option α
  | [] => none
  | a :: rest => some (pyMinFold key a rest)

/-- The `possible_states` list built by `Game.ai_plays`: one
`(next_board, eval_play(next_board, next_player, 1, -999999, 999999))` pair
per empty cell, in row-major order. -/
def possible_states (b : GameBoard) (player : Cell) : List (GameBoard × Int) :=
  (cellsList b).filterMap (fun rc =>
    if cellAt b rc.1 rc.2 = Cell.Empty then
      let next_board := setCellB b rc.1 rc.2 player
      some (next_board, eval_play next_board (nextPlayer player) 1 (-999999) 999999)
    else none)

/-- Models `Game.ai_plays(player, game_board)`: the board committed to
`self.new_board`, i.e. the first component of the score-minimal entry of
`possible_states`; `none` models the `ValueError` of `min` on an empty list
(in which case `self.new_board` is never reassigned). -/
def ai_plays (player : Cell) (b : GameBoard) : Option GameBoard :=
  (pyMin (fun board_and_score => board_and_score.2) (possible_states b player)).map
    (fun best_play => best_play.1)

/-! ## Spec-level predicates (runs, all lines of the grid)

These formalize the specification's vocabulary: a *run* is an uninterrupted
sequence of identical symbols, and the win condition quantifies over every
row, every column, and every diagonal of both families. -/

/-- Predicate `startsWithRun c n l`: the first `n` cells of `l` exist and all hold `c`. -/
def startsWithRun (c : Cell) : Nat → List Cell → Bool
  | 0, _ => true
  | _ + 1, [] => false
  | n + 1, x :: rest => x = c && startsWithRun c n rest

/-- Predicate `hasRun c n l`: some `n` consecutive cells of `l` all hold `c`. -/
def hasRun (c : Cell) (n : Nat) : List Cell → Bool
  | [] => startsWithRun c n []
  | x :: rest => startsWithRun c n (x :: rest) || hasRun c n rest

/-- Modelled from the spec: every diagonal of both families — each
top-left→bottom-right diagonal starts in the top row or the leftmost column,
each top-right→bottom-left diagonal starts in the top row or the rightmost
column. -/
def specDiagLines (b : GameBoard) : List (List Cell) :=
  ((List.range b.no_columns).map (fun i => diagCellsLR b i 0)) ++
  ((List.range b.no_rows).map (fun j => diagCellsLR b 0 j)) ++
  ((List.range b.no_columns).map (fun i => diagCellsRL b i 0)) ++
  ((List.range b.no_rows).map (fun j => diagCellsRL b ((b.no_columns : Int) - 1) j))

/-- Modelled from the spec: every line the winner scan is required to cover —
every row, every column, and every diagonal of both families. -/
def specLines (b : GameBoard) : List (List Cell) :=
  b.game_board ++ ((List.range b.no_columns).map (columnCells b)) ++ specDiagLines b

/-- Player `c` has a winning run somewhere on the board (spec reading). -/
def specHasWin (c : Cell) (b : GameBoard) : Bool :=
  (specLines b).any (fun l => hasRun c b.number_to_win l)

/-- Player `c` has a winning run on some diagonal of either family. -/
def specHasDiagWin (c : Cell) (b : GameBoard) : Bool :=
  (specDiagLines b).any (fun l => hasRun c b.number_to_win l)

/-- The lines the implementation actually scans: every row, every column,
and exactly the diagonals visited by the four diagonal examiners with the
cut-offs computed in `_examine_diagonals`. -/
def scannedLines (b : GameBoard) : List (List Cell) :=
  b.game_board ++ ((List.range b.no_columns).map (columnCells b)) ++
  lrUpperLines b ((b.no_columns : Int) - b.number_to_win + 1) ++
  lrLowerLines b ((b.no_rows : Int) - b.number_to_win + 1) ++
  rlUpperLines b ((b.no_columns : Int) - b.number_to_win + 1) ++
  rlLowerLines b ((b.no_rows : Int) - b.number_to_win + 1)

/-- Player `c` has a winning run on some line the implementation scans. -/
def scannedHasWin (c : Cell) (b : GameBoard) : Bool :=
  (scannedLines b).any (fun l => hasRun c b.number_to_win l)

/-- Boards reachable by legal alternating play that stops as soon as a winner
is reported: start from a freshly initialized board with either symbol to
move; from a position with no reported winner, the player to move fills an
in-range empty cell and the turn passes to the opponent. -/
inductive Reach : GameBoard → Cell → Prop where
  | start (no_columns no_rows number_to_win : Nat) (p : Cell) :
      p = Cell.X ∨ p = Cell.O →
      Reach (GameBoard.init no_columns no_rows number_to_win) p
  | step (b : GameBoard) (p : Cell) (r c : Nat) :
      Reach b p → get_winner b = 0 → r < b.no_rows → c < b.no_columns →
      cellAt b r c = Cell.Empty → Reach (setCellB b r c p) (nextPlayer p)

end TicTacToe

namespace TicTacToe

/-! ## Lemmas about runs -/

theorem startsWithRun_zero (c : Cell) (l : List Cell) : startsWithRun c 0 l = true := rfl

theorem startsWithRun_length (c : Cell) :
    ∀ (n : Nat) (l : List Cell), startsWithRun c n l = true → n ≤ l.length := by
  intro n
  induction n with
  | zero => intro l _; exact Nat.zero_le _
  | succ m ih =>
    intro l h
    cases l with
    | nil => simp [startsWithRun] at h
    | cons x rest =>
      simp only [startsWithRun, Bool.and_eq_true] at h
      have := ih rest h.2
      simp [List.length_cons]
      omega

theorem hasRun_zero (c : Cell) (l : List Cell) : hasRun c 0 l = true := by
  cases l with
  | nil => rfl
  | cons x rest => simp [hasRun, startsWithRun_zero]

theorem hasRun_length (c : Cell) (n : Nat) :
    ∀ (l : List Cell), hasRun c n l = true → n ≤ l.length := by
  intro l
  induction l with
  | nil =>
    intro h
    simp only [hasRun] at h
    exact startsWithRun_length c n [] h
  | cons x rest ih =>
    intro h
    simp only [hasRun, Bool.or_eq_true] at h
    rcases h with h | h
    · exact startsWithRun_length c n _ h
    · have := ih h
      simp [List.length_cons]
      omega

theorem hasRun_cons_of (c : Cell) (n : Nat) (x : Cell) (l : List Cell)
    (h : hasRun c n l = true) : hasRun c n (x :: l) = true := by
  simp [hasRun, h]

theorem hasRun_append_left (c : Cell) (n : Nat) (u l : List Cell)
    (h : hasRun c n l = true) : hasRun c n (u ++ l) = true := by
  induction u with
  | nil => simpa using h
  | cons x u ih => exact hasRun_cons_of c n x (u ++ l) ih

theorem hasRun_of_startsWithRun (c : Cell) (n : Nat) (l : List Cell)
    (h : startsWithRun c n l = true) : hasRun c n l = true := by
  cases l with
  | nil => simpa [hasRun] using h
  | cons x rest => simp [hasRun, h]

theorem replicate_cons_eq (n : Nat) (x : Cell) (l : List Cell) :
    List.replicate n x ++ x :: l = List.replicate (n + 1) x ++ l := by
  rw [List.replicate_succ', List.append_assoc]
  rfl

theorem startsWithRun_replicate_append (c : Cell) :
    ∀ (m : Nat) (n : Nat) (l : List Cell),
      startsWithRun c (m + n) (List.replicate m c ++ l) = startsWithRun c n l := by
  intro m
  induction m with
  | zero => intro n l; simp
  | succ k ih =>
    intro n l
    have hre : k + 1 + n = (k + n) + 1 := by omega
    rw [hre]
    simp only [List.replicate_succ, List.cons_append, startsWithRun]
    simp [ih]

theorem hasRun_replicate_self (c : Cell) (n : Nat) (l : List Cell) :
    hasRun c n (List.replicate n c ++ l) = true := by
  apply hasRun_of_startsWithRun
  have := startsWithRun_replicate_append c n 0 l
  simpa using this

theorem run_in_replicate (c : Cell) (n m : Nat)
    (h : hasRun c n (List.replicate m c) = true) : n ≤ m := by
  have := hasRun_length c n _ h
  simpa using this

theorem run_elim_cons (c a : Cell) (n : Nat) (rest : List Cell) (ha : a ≠ c) :
    ∀ (m : Nat), m < n →
      hasRun c n (List.replicate m c ++ a :: rest) = true → hasRun c n rest = true := by
  intro m
  induction m with
  | zero =>
    intro hm h
    simp only [List.replicate, List.nil_append, hasRun, Bool.or_eq_true] at h
    rcases h with h | h
    · cases n with
      | zero => omega
      | succ k =>
        simp only [startsWithRun, Bool.and_eq_true, decide_eq_true_eq] at h
        exact absurd h.1 ha
    · exact h
  | succ k ih =>
    intro hm h
    simp only [List.replicate_succ, List.cons_append, hasRun, Bool.or_eq_true] at h
    rcases h with h | h
    · exfalso
      have hk : n = (k + 1) + (n - (k + 1)) := by omega
      rw [hk] at h
      have hsw := startsWithRun_replicate_append c (k + 1) (n - (k + 1)) (a :: rest)
      simp only [List.replicate_succ, List.cons_append] at hsw
      have h2 : startsWithRun c (n - (k + 1)) (a :: rest) = true := by
        rw [← hsw]
        exact h
      have hpos : 1 ≤ n - (k + 1) := by omega
      cases hnk : n - (k + 1) with
      | zero => omega
      | succ j =>
        rw [hnk] at h2
        simp only [startsWithRun, Bool.and_eq_true, decide_eq_true_eq] at h2
        exact absurd h2.1 ha
    · exact ih (by omega) h

theorem flipCell_flipCell (c : Cell) : flipCell (flipCell c) = c := by
  cases c <;> rfl

theorem flipCell_eq_iff (x y : Cell) : (flipCell x = flipCell y) ↔ x = y := by
  cases x <;> cases y <;> simp [flipCell]

theorem startsWithRun_map_flip (c : Cell) :
    ∀ (n : Nat) (l : List Cell),
      startsWithRun (flipCell c) n (l.map flipCell) = startsWithRun c n l := by
  intro n
  induction n with
  | zero => intro l; rfl
  | succ m ih =>
    intro l
    cases l with
    | nil => rfl
    | cons x rest =>
      simp only [List.map_cons, startsWithRun, ih rest]
      congr 1
      simp [flipCell_eq_iff]

theorem hasRun_map_flip (c : Cell) (n : Nat) :
    ∀ (l : List Cell), hasRun (flipCell c) n (l.map flipCell) = hasRun c n l := by
  intro l
  induction l with
  | nil =>
    simp only [List.map_nil, hasRun]
    exact startsWithRun_map_flip c n []
  | cons x rest ih =>
    simp only [List.map_cons, hasRun, ih]
    congr 1
    have := startsWithRun_map_flip c n (x :: rest)
    simpa using this

end TicTacToe

namespace TicTacToe

/-! ## Soundness and completeness of the counter scan -/

theorem examine_line_cases (ntw : Nat) :
    ∀ (l : List Cell) (nx no : Nat),
      examine_line ntw l nx no = 0 ∨ examine_line ntw l nx no = 100 ∨
        examine_line ntw l nx no = -100 := by
  intro l
  induction l with
  | nil => intro nx no; left; rfl
  | cons e rest ih =>
    intro nx no
    simp only [examine_line, PLAYER_X_WON, PLAYER_O_WON]
    by_cases h1 : (if e = Cell.X then nx + 1 else 0) = ntw
    · simp [h1]
    · by_cases h2 : (if e = Cell.O then no + 1 else 0) = ntw
      · simp [h1, h2]
      · simpa [h1, h2] using ih _ _

theorem examine_line_xwon_sound (ntw : Nat) :
    ∀ (l : List Cell) (nx no : Nat),
      examine_line ntw l nx no = PLAYER_X_WON →
      hasRun Cell.X ntw (List.replicate nx Cell.X ++ l) = true := by
  intro l
  induction l with
  | nil =>
    intro nx no h
    exact absurd h (by simp [examine_line, PLAYER_X_WON, NO_ONE_WON])
  | cons e rest ih =>
    intro nx no h
    cases e with
    | X =>
      by_cases h1 : nx + 1 = ntw
      · rw [replicate_cons_eq, h1]
        exact hasRun_replicate_self Cell.X ntw rest
      · by_cases h2 : (0 : Nat) = ntw
        · rw [← h2]; exact hasRun_zero Cell.X _
        · have hrec : examine_line ntw rest (nx + 1) 0 = PLAYER_X_WON := by
            simpa [examine_line, h1, h2] using h
          rw [replicate_cons_eq]
          exact ih (nx + 1) 0 hrec
    | O =>
      by_cases h2 : (0 : Nat) = ntw
      · rw [← h2]; exact hasRun_zero Cell.X _
      · by_cases h3 : no + 1 = ntw
        · exfalso
          have : examine_line ntw (Cell.O :: rest) nx no = PLAYER_O_WON := by
            simp [examine_line, h2, h3]
          rw [this] at h
          exact absurd h (by simp [PLAYER_O_WON, PLAYER_X_WON])
        · have hrec : examine_line ntw rest 0 (no + 1) = PLAYER_X_WON := by
            simpa [examine_line, h2, h3] using h
          have := ih 0 (no + 1) hrec
          simp only [List.replicate, List.nil_append] at this
          exact hasRun_append_left Cell.X ntw (List.replicate nx Cell.X) _
            (hasRun_cons_of Cell.X ntw Cell.O rest this)
    | Empty =>
      by_cases h2 : (0 : Nat) = ntw
      · rw [← h2]; exact hasRun_zero Cell.X _
      · have hrec : examine_line ntw rest 0 0 = PLAYER_X_WON := by
          simpa [examine_line, h2] using h
        have := ih 0 0 hrec
        simp only [List.replicate, List.nil_append] at this
        exact hasRun_append_left Cell.X ntw (List.replicate nx Cell.X) _
          (hasRun_cons_of Cell.X ntw Cell.Empty rest this)

theorem examine_line_flip (ntw : Nat) (hntw : 1 ≤ ntw) :
    ∀ (l : List Cell) (nx no : Nat),
      examine_line ntw (l.map flipCell) no nx = - examine_line ntw l nx no := by
  intro l
  induction l with
  | nil => intro nx no; simp [examine_line, NO_ONE_WON]
  | cons e rest ih =>
    intro nx no
    have hz : ¬((0 : Nat) = ntw) := by omega
    cases e with
    | Empty =>
      have hgoal : examine_line ntw (List.map flipCell rest) 0 0
          = -examine_line ntw rest 0 0 := ih 0 0
      simpa [examine_line, flipCell, hz] using hgoal
    | X =>
      by_cases h1 : nx + 1 = ntw
      · simp [examine_line, flipCell, hz, h1, PLAYER_X_WON, PLAYER_O_WON]
      · have hgoal : examine_line ntw (List.map flipCell rest) 0 (nx + 1)
            = -examine_line ntw rest (nx + 1) 0 := ih (nx + 1) 0
        simpa [examine_line, flipCell, hz, h1] using hgoal
    | O =>
      by_cases h1 : no + 1 = ntw
      · simp [examine_line, flipCell, hz, h1, PLAYER_X_WON, PLAYER_O_WON]
      · have hgoal : examine_line ntw (List.map flipCell rest) (no + 1) 0
            = -examine_line ntw rest 0 (no + 1) := ih 0 (no + 1)
        simpa [examine_line, flipCell, hz, h1] using hgoal

theorem examine_line_owon_sound (ntw : Nat) :
    ∀ (l : List Cell) (nx no : Nat),
      examine_line ntw l nx no = PLAYER_O_WON →
      hasRun Cell.O ntw (List.replicate no Cell.O ++ l) = true := by
  intro l nx no h
  by_cases hntw : 1 ≤ ntw
  · have hflip : examine_line ntw (l.map flipCell) no nx = PLAYER_X_WON := by
      rw [examine_line_flip ntw hntw l nx no, h]
      simp [PLAYER_O_WON, PLAYER_X_WON]
    have hx := examine_line_xwon_sound ntw (l.map flipCell) no nx hflip
    have heq : List.replicate no Cell.X ++ l.map flipCell
        = (List.replicate no Cell.O ++ l).map flipCell := by
      simp [List.map_append, List.map_replicate, flipCell]
    rw [heq] at hx
    have := hasRun_map_flip Cell.O ntw (List.replicate no Cell.O ++ l)
    simp only [flipCell] at this
    rw [this] at hx
    exact hx
  · have : ntw = 0 := by omega
    rw [this]
    exact hasRun_zero Cell.O _

theorem examine_line_xwon_complete (ntw : Nat) (hntw : 1 ≤ ntw) :
    ∀ (l : List Cell) (nx no : Nat), nx < ntw → no < ntw →
      hasRun Cell.X ntw (List.replicate nx Cell.X ++ l) = true →
      hasRun Cell.O ntw (List.replicate no Cell.O ++ l) = false →
      examine_line ntw l nx no = PLAYER_X_WON := by
  intro l
  induction l with
  | nil =>
    intro nx no hnx _ hX _
    exfalso
    have := run_in_replicate Cell.X ntw nx (by simpa using hX)
    omega
  | cons e rest ih =>
    intro nx no hnx hno hX hO
    have hz : ¬((0 : Nat) = ntw) := by omega
    cases e with
    | X =>
      by_cases h1 : nx + 1 = ntw
      · simp [examine_line, h1]
      · have hX' : hasRun Cell.X ntw (List.replicate (nx + 1) Cell.X ++ rest) = true := by
          rw [← replicate_cons_eq]; exact hX
        have hO' : hasRun Cell.O ntw rest = false := by
          cases hOr : hasRun Cell.O ntw rest with
          | false => rfl
          | true =>
            exfalso
            have : hasRun Cell.O ntw (List.replicate no Cell.O ++ Cell.X :: rest) = true :=
              hasRun_append_left _ _ _ _ (hasRun_cons_of _ _ _ _ hOr)
            rw [this] at hO; exact absurd hO (by decide)
        have := ih (nx + 1) 0 (by omega) (by omega) hX' (by simpa using hO')
        simpa [examine_line, h1, hz] using this
    | O =>
      by_cases h2 : no + 1 = ntw
      · exfalso
        have : hasRun Cell.O ntw (List.replicate no Cell.O ++ Cell.O :: rest) = true := by
          rw [replicate_cons_eq, h2]
          exact hasRun_replicate_self Cell.O ntw rest
        rw [this] at hO; exact absurd hO (by decide)
      · have hX' : hasRun Cell.X ntw rest = true :=
          run_elim_cons Cell.X Cell.O ntw rest (by decide) nx hnx hX
        have hO' : hasRun Cell.O ntw (List.replicate (no + 1) Cell.O ++ rest) = false := by
          rw [← replicate_cons_eq]; exact hO
        have := ih 0 (no + 1) (by omega) (by omega) (by simpa using hX') hO'
        simpa [examine_line, h2, hz] using this
    | Empty =>
      have hX' : hasRun Cell.X ntw rest = true :=
        run_elim_cons Cell.X Cell.Empty ntw rest (by decide) nx hnx hX
      have hO' : hasRun Cell.O ntw rest = false := by
        cases hOr : hasRun Cell.O ntw rest with
        | false => rfl
        | true =>
          exfalso
          have : hasRun Cell.O ntw (List.replicate no Cell.O ++ Cell.Empty :: rest) = true :=
            hasRun_append_left _ _ _ _ (hasRun_cons_of _ _ _ _ hOr)
          rw [this] at hO; exact absurd hO (by decide)
      have := ih 0 0 (by omega) (by omega) (by simpa using hX') (by simpa using hO')
      simpa [examine_line, hz] using this

theorem examine_line_owon_complete (ntw : Nat) (hntw : 1 ≤ ntw) :
    ∀ (l : List Cell) (nx no : Nat), nx < ntw → no < ntw →
      hasRun Cell.O ntw (List.replicate no Cell.O ++ l) = true →
      hasRun Cell.X ntw (List.replicate nx Cell.X ++ l) = false →
      examine_line ntw l nx no = PLAYER_O_WON := by
  intro l nx no hnx hno hO hX
  have heqO : List.replicate no Cell.X ++ l.map flipCell
      = (List.replicate no Cell.O ++ l).map flipCell := by
    simp [List.map_append, List.map_replicate, flipCell]
  have heqX : List.replicate nx Cell.O ++ l.map flipCell
      = (List.replicate nx Cell.X ++ l).map flipCell := by
    simp [List.map_append, List.map_replicate, flipCell]
  have hO' : hasRun Cell.X ntw (List.replicate no Cell.X ++ l.map flipCell) = true := by
    rw [heqO]
    have := hasRun_map_flip Cell.O ntw (List.replicate no Cell.O ++ l)
    simp only [flipCell] at this
    rw [this]
    exact hO
  have hX' : hasRun Cell.O ntw (List.replicate nx Cell.O ++ l.map flipCell) = false := by
    rw [heqX]
    have := hasRun_map_flip Cell.X ntw (List.replicate nx Cell.X ++ l)
    simp only [flipCell] at this
    rw [this]
    exact hX
  have hx := examine_line_xwon_complete ntw hntw (l.map flipCell) no nx hno hnx hO' hX'
  have hm := examine_line_flip ntw hntw l nx no
  rw [hx] at hm
  have : examine_line ntw l nx no = - PLAYER_X_WON := by omega
  rw [this]
  simp [PLAYER_X_WON, PLAYER_O_WON]

theorem examine_line_short (ntw : Nat) :
    ∀ (l : List Cell) (nx no : Nat), nx + l.length < ntw → no + l.length < ntw →
      examine_line ntw l nx no = 0 := by
  intro l
  induction l with
  | nil => intro nx no _ _; rfl
  | cons e rest ih =>
    intro nx no hnx hno
    simp only [List.length_cons] at hnx hno
    have h1 : ¬((if e = Cell.X then nx + 1 else 0) = ntw) := by
      split <;> omega
    have h2 : ¬((if e = Cell.O then no + 1 else 0) = ntw) := by
      split <;> omega
    simp only [examine_line, h1, h2, if_false, ite_false]
    apply ih
    · split <;> omega
    · split <;> omega

end TicTacToe

namespace TicTacToe

/-! ## Aggregation lemmas: sums and first-nonzero over scan results -/

theorem firstNonzero_mem_or_zero (l : List Int) :
    firstNonzero l = 0 ∨ firstNonzero l ∈ l := by
  induction l with
  | nil => left; rfl
  | cons r rest ih =>
    by_cases hr : r ≠ 0
    · right; simp [firstNonzero, hr]
    · rcases ih with h | h
      · left; simpa [firstNonzero, hr] using h
      · right; simp [firstNonzero, hr]; right; exact h

theorem firstNonzero_nonneg (l : List Int) (h : ∀ r ∈ l, 0 ≤ r) :
    0 ≤ firstNonzero l := by
  rcases firstNonzero_mem_or_zero l with h0 | h0
  · omega
  · exact h _ h0

theorem firstNonzero_nonpos (l : List Int) (h : ∀ r ∈ l, r ≤ 0) :
    firstNonzero l ≤ 0 := by
  rcases firstNonzero_mem_or_zero l with h0 | h0
  · omega
  · exact h _ h0

theorem firstNonzero_eq_100 (l : List Int) (h : ∀ r ∈ l, r = 0 ∨ r = 100)
    (hmem : (100 : Int) ∈ l) : firstNonzero l = 100 := by
  induction l with
  | nil => cases hmem
  | cons r rest ih =>
    rcases h r (by simp) with hr | hr
    · subst hr
      have hmem' : (100 : Int) ∈ rest := by
        rcases List.mem_cons.1 hmem with h0 | h0
        · omega
        · exact h0
      have := ih (fun x hx => h x (List.mem_cons_of_mem _ hx)) hmem'
      simpa [firstNonzero] using this
    · subst hr
      simp [firstNonzero]

theorem firstNonzero_eq_neg100 (l : List Int) (h : ∀ r ∈ l, r = 0 ∨ r = -100)
    (hmem : (-100 : Int) ∈ l) : firstNonzero l = -100 := by
  induction l with
  | nil => cases hmem
  | cons r rest ih =>
    rcases h r (by simp) with hr | hr
    · subst hr
      have hmem' : (-100 : Int) ∈ rest := by
        rcases List.mem_cons.1 hmem with h0 | h0
        · omega
        · exact h0
      have := ih (fun x hx => h x (List.mem_cons_of_mem _ hx)) hmem'
      simpa [firstNonzero] using this
    · subst hr
      simp [firstNonzero]

theorem sum_nonneg_int (l : List Int) (h : ∀ r ∈ l, 0 ≤ r) : 0 ≤ l.sum := by
  induction l with
  | nil => simp
  | cons r rest ih =>
    have h1 := h r (by simp)
    have h2 := ih (fun x hx => h x (List.mem_cons_of_mem _ hx))
    simp only [List.sum_cons]
    omega

theorem sum_nonpos_int (l : List Int) (h : ∀ r ∈ l, r ≤ 0) : l.sum ≤ 0 := by
  induction l with
  | nil => simp
  | cons r rest ih =>
    have h1 := h r (by simp)
    have h2 := ih (fun x hx => h x (List.mem_cons_of_mem _ hx))
    simp only [List.sum_cons]
    omega

theorem le_sum_of_mem_int (l : List Int) (h : ∀ r ∈ l, 0 ≤ r) :
    ∀ x ∈ l, x ≤ l.sum := by
  induction l with
  | nil => intro x hx; cases hx
  | cons r rest ih =>
    intro x hx
    have hr := h r (by simp)
    have hrest : ∀ r ∈ rest, (0 : Int) ≤ r := fun y hy => h y (List.mem_cons_of_mem _ hy)
    have hsum := sum_nonneg_int rest hrest
    rcases List.mem_cons.1 hx with h0 | h0
    · subst h0; simp only [List.sum_cons]; omega
    · have := ih hrest x h0
      simp only [List.sum_cons]
      have hx0 := hrest x h0
      omega

theorem sum_le_of_mem_int (l : List Int) (h : ∀ r ∈ l, r ≤ 0) :
    ∀ x ∈ l, l.sum ≤ x := by
  induction l with
  | nil => intro x hx; cases hx
  | cons r rest ih =>
    intro x hx
    have hr := h r (by simp)
    have hrest : ∀ r ∈ rest, r ≤ (0 : Int) := fun y hy => h y (List.mem_cons_of_mem _ hy)
    have hsum := sum_nonpos_int rest hrest
    rcases List.mem_cons.1 hx with h0 | h0
    · subst h0; simp only [List.sum_cons]; omega
    · have := ih hrest x h0
      simp only [List.sum_cons]
      have hx0 := hrest x h0
      omega

/-! ## Scan results of a whole group of lines -/

theorem scans_zero_or_100 (ntw : Nat) (L : List (List Cell))
    (h : ∀ l ∈ L, hasRun Cell.O ntw l = false) :
    ∀ r ∈ L.map (fun l => examine_line ntw l 0 0), r = 0 ∨ r = 100 := by
  intro r hr
  obtain ⟨l, hl, rfl⟩ := List.mem_map.1 hr
  rcases examine_line_cases ntw l 0 0 with h0 | h0 | h0
  · left; exact h0
  · right; exact h0
  · exfalso
    have : examine_line ntw l 0 0 = PLAYER_O_WON := by
      rw [h0]; rfl
    have hrun := examine_line_owon_sound ntw l 0 0 this
    simp only [List.replicate, List.nil_append] at hrun
    rw [h l hl] at hrun
    exact absurd hrun (by decide)

theorem scans_zero_or_neg100 (ntw : Nat) (L : List (List Cell))
    (h : ∀ l ∈ L, hasRun Cell.X ntw l = false) :
    ∀ r ∈ L.map (fun l => examine_line ntw l 0 0), r = 0 ∨ r = -100 := by
  intro r hr
  obtain ⟨l, hl, rfl⟩ := List.mem_map.1 hr
  rcases examine_line_cases ntw l 0 0 with h0 | h0 | h0
  · left; exact h0
  · exfalso
    have : examine_line ntw l 0 0 = PLAYER_X_WON := by
      rw [h0]; rfl
    have hrun := examine_line_xwon_sound ntw l 0 0 this
    simp only [List.replicate, List.nil_append] at hrun
    rw [h l hl] at hrun
    exact absurd hrun (by decide)
  · right; exact h0

theorem scan_eq_100_of_run (ntw : Nat) (hntw : 1 ≤ ntw) (l : List Cell)
    (hX : hasRun Cell.X ntw l = true) (hO : hasRun Cell.O ntw l = false) :
    examine_line ntw l 0 0 = 100 := by
  have := examine_line_xwon_complete ntw hntw l 0 0 (by omega) (by omega)
    (by simpa using hX) (by simpa using hO)
  rw [this]; rfl

theorem scan_eq_neg100_of_run (ntw : Nat) (hntw : 1 ≤ ntw) (l : List Cell)
    (hO : hasRun Cell.O ntw l = true) (hX : hasRun Cell.X ntw l = false) :
    examine_line ntw l 0 0 = -100 := by
  have := examine_line_owon_complete ntw hntw l 0 0 (by omega) (by omega)
    (by simpa using hO) (by simpa using hX)
  rw [this]; rfl

theorem sum_scans_nonneg (ntw : Nat) (L : List (List Cell))
    (h : ∀ l ∈ L, hasRun Cell.O ntw l = false) :
    0 ≤ (L.map (fun l => examine_line ntw l 0 0)).sum :=
  sum_nonneg_int _ (fun r hr => by rcases scans_zero_or_100 ntw L h r hr with h0 | h0 <;> omega)

theorem sum_scans_nonpos (ntw : Nat) (L : List (List Cell))
    (h : ∀ l ∈ L, hasRun Cell.X ntw l = false) :
    (L.map (fun l => examine_line ntw l 0 0)).sum ≤ 0 :=
  sum_nonpos_int _ (fun r hr => by rcases scans_zero_or_neg100 ntw L h r hr with h0 | h0 <;> omega)

theorem fn_scans_nonneg (ntw : Nat) (L : List (List Cell))
    (h : ∀ l ∈ L, hasRun Cell.O ntw l = false) :
    0 ≤ firstNonzero (L.map (fun l => examine_line ntw l 0 0)) :=
  firstNonzero_nonneg _ (fun r hr => by rcases scans_zero_or_100 ntw L h r hr with h0 | h0 <;> omega)

theorem fn_scans_nonpos (ntw : Nat) (L : List (List Cell))
    (h : ∀ l ∈ L, hasRun Cell.X ntw l = false) :
    firstNonzero (L.map (fun l => examine_line ntw l 0 0)) ≤ 0 :=
  firstNonzero_nonpos _ (fun r hr => by rcases scans_zero_or_neg100 ntw L h r hr with h0 | h0 <;> omega)

theorem sum_scans_ge_100 (ntw : Nat) (hntw : 1 ≤ ntw) (L : List (List Cell))
    (h : ∀ l ∈ L, hasRun Cell.O ntw l = false)
    (l₀ : List Cell) (hl₀ : l₀ ∈ L) (hX : hasRun Cell.X ntw l₀ = true) :
    100 ≤ (L.map (fun l => examine_line ntw l 0 0)).sum := by
  have hscan : examine_line ntw l₀ 0 0 = 100 :=
    scan_eq_100_of_run ntw hntw l₀ hX (h l₀ hl₀)
  have hmem : (100 : Int) ∈ L.map (fun l => examine_line ntw l 0 0) :=
    List.mem_map.2 ⟨l₀, hl₀, hscan⟩
  exact le_sum_of_mem_int _
    (fun r hr => by rcases scans_zero_or_100 ntw L h r hr with h0 | h0 <;> omega) _ hmem

theorem sum_scans_le_neg100 (ntw : Nat) (hntw : 1 ≤ ntw) (L : List (List Cell))
    (h : ∀ l ∈ L, hasRun Cell.X ntw l = false)
    (l₀ : List Cell) (hl₀ : l₀ ∈ L) (hO : hasRun Cell.O ntw l₀ = true) :
    (L.map (fun l => examine_line ntw l 0 0)).sum ≤ -100 := by
  have hscan : examine_line ntw l₀ 0 0 = -100 :=
    scan_eq_neg100_of_run ntw hntw l₀ hO (h l₀ hl₀)
  have hmem : (-100 : Int) ∈ L.map (fun l => examine_line ntw l 0 0) :=
    List.mem_map.2 ⟨l₀, hl₀, hscan⟩
  exact sum_le_of_mem_int _
    (fun r hr => by rcases scans_zero_or_neg100 ntw L h r hr with h0 | h0 <;> omega) _ hmem

theorem fn_scans_eq_100 (ntw : Nat) (hntw : 1 ≤ ntw) (L : List (List Cell))
    (h : ∀ l ∈ L, hasRun Cell.O ntw l = false)
    (l₀ : List Cell) (hl₀ : l₀ ∈ L) (hX : hasRun Cell.X ntw l₀ = true) :
    firstNonzero (L.map (fun l => examine_line ntw l 0 0)) = 100 := by
  have hscan : examine_line ntw l₀ 0 0 = 100 :=
    scan_eq_100_of_run ntw hntw l₀ hX (h l₀ hl₀)
  exact firstNonzero_eq_100 _ (scans_zero_or_100 ntw L h)
    (List.mem_map.2 ⟨l₀, hl₀, hscan⟩)

theorem fn_scans_eq_neg100 (ntw : Nat) (hntw : 1 ≤ ntw) (L : List (List Cell))
    (h : ∀ l ∈ L, hasRun Cell.X ntw l = false)
    (l₀ : List Cell) (hl₀ : l₀ ∈ L) (hO : hasRun Cell.O ntw l₀ = true) :
    firstNonzero (L.map (fun l => examine_line ntw l 0 0)) = -100 := by
  have hscan : examine_line ntw l₀ 0 0 = -100 :=
    scan_eq_neg100_of_run ntw hntw l₀ hO (h l₀ hl₀)
  exact firstNonzero_eq_neg100 _ (scans_zero_or_neg100 ntw L h)
    (List.mem_map.2 ⟨l₀, hl₀, hscan⟩)

end TicTacToe

namespace TicTacToe

/-! ## Sign of `get_winner` in terms of runs on the scanned lines -/

theorem examine_rows_eq (b : GameBoard) :
    examine_rows b
      = (b.game_board.map (fun l => examine_line b.number_to_win l 0 0)).sum := rfl

theorem examine_columns_eq (b : GameBoard) :
    examine_columns b
      = (((List.range b.no_columns).map (columnCells b)).map
          (fun l => examine_line b.number_to_win l 0 0)).sum := by
  rw [examine_columns, List.map_map]
  rfl

theorem mem_scannedLines_row (b : GameBoard) (l : List Cell)
    (h : l ∈ b.game_board) : l ∈ scannedLines b := by
  simp only [scannedLines, List.mem_append]
  tauto

theorem mem_scannedLines_col (b : GameBoard) (l : List Cell)
    (h : l ∈ (List.range b.no_columns).map (columnCells b)) : l ∈ scannedLines b := by
  simp only [scannedLines, List.mem_append]
  tauto

theorem mem_scannedLines_lrU (b : GameBoard) (l : List Cell)
    (h : l ∈ lrUpperLines b ((b.no_columns : Int) - b.number_to_win + 1)) :
    l ∈ scannedLines b := by
  simp only [scannedLines, List.mem_append]
  tauto

theorem mem_scannedLines_lrL (b : GameBoard) (l : List Cell)
    (h : l ∈ lrLowerLines b ((b.no_rows : Int) - b.number_to_win + 1)) :
    l ∈ scannedLines b := by
  simp only [scannedLines, List.mem_append]
  tauto

theorem mem_scannedLines_rlU (b : GameBoard) (l : List Cell)
    (h : l ∈ rlUpperLines b ((b.no_columns : Int) - b.number_to_win + 1)) :
    l ∈ scannedLines b := by
  simp only [scannedLines, List.mem_append]
  tauto

theorem mem_scannedLines_rlL (b : GameBoard) (l : List Cell)
    (h : l ∈ rlLowerLines b ((b.no_rows : Int) - b.number_to_win + 1)) :
    l ∈ scannedLines b := by
  simp only [scannedLines, List.mem_append]
  tauto

theorem get_winner_nonpos (b : GameBoard)
    (h : ∀ l ∈ scannedLines b, hasRun Cell.X b.number_to_win l = false) :
    get_winner b ≤ 0 := by
  have h1 : examine_rows b ≤ 0 := by
    rw [examine_rows_eq]
    exact sum_scans_nonpos _ _ (fun l hl => h l (mem_scannedLines_row b l hl))
  have h2 : examine_columns b ≤ 0 := by
    rw [examine_columns_eq]
    exact sum_scans_nonpos _ _ (fun l hl => h l (mem_scannedLines_col b l hl))
  have h3 : left_to_right_upper_diag b ((b.no_columns : Int) - b.number_to_win + 1) ≤ 0 := by
    unfold left_to_right_upper_diag
    exact fn_scans_nonpos _ _ (fun l hl => h l (mem_scannedLines_lrU b l hl))
  have h4 : left_to_right_lower_diag b ((b.no_rows : Int) - b.number_to_win + 1) ≤ 0 := by
    unfold left_to_right_lower_diag
    exact fn_scans_nonpos _ _ (fun l hl => h l (mem_scannedLines_lrL b l hl))
  have h5 : right_to_left_upper_diag b ((b.no_columns : Int) - b.number_to_win + 1) ≤ 0 := by
    unfold right_to_left_upper_diag
    exact fn_scans_nonpos _ _ (fun l hl => h l (mem_scannedLines_rlU b l hl))
  have h6 : right_to_left_lower_diag b ((b.no_rows : Int) - b.number_to_win + 1) ≤ 0 := by
    unfold right_to_left_lower_diag
    exact fn_scans_nonpos _ _ (fun l hl => h l (mem_scannedLines_rlL b l hl))
  unfold get_winner examine_diagonals
  omega

theorem get_winner_nonneg (b : GameBoard)
    (h : ∀ l ∈ scannedLines b, hasRun Cell.O b.number_to_win l = false) :
    0 ≤ get_winner b := by
  have h1 : 0 ≤ examine_rows b := by
    rw [examine_rows_eq]
    exact sum_scans_nonneg _ _ (fun l hl => h l (mem_scannedLines_row b l hl))
  have h2 : 0 ≤ examine_columns b := by
    rw [examine_columns_eq]
    exact sum_scans_nonneg _ _ (fun l hl => h l (mem_scannedLines_col b l hl))
  have h3 : 0 ≤ left_to_right_upper_diag b ((b.no_columns : Int) - b.number_to_win + 1) := by
    unfold left_to_right_upper_diag
    exact fn_scans_nonneg _ _ (fun l hl => h l (mem_scannedLines_lrU b l hl))
  have h4 : 0 ≤ left_to_right_lower_diag b ((b.no_rows : Int) - b.number_to_win + 1) := by
    unfold left_to_right_lower_diag
    exact fn_scans_nonneg _ _ (fun l hl => h l (mem_scannedLines_lrL b l hl))
  have h5 : 0 ≤ right_to_left_upper_diag b ((b.no_columns : Int) - b.number_to_win + 1) := by
    unfold right_to_left_upper_diag
    exact fn_scans_nonneg _ _ (fun l hl => h l (mem_scannedLines_rlU b l hl))
  have h6 : 0 ≤ right_to_left_lower_diag b ((b.no_rows : Int) - b.number_to_win + 1) := by
    unfold right_to_left_lower_diag
    exact fn_scans_nonneg _ _ (fun l hl => h l (mem_scannedLines_rlL b l hl))
  unfold get_winner examine_diagonals
  omega

theorem get_winner_pos (b : GameBoard) (hntw : 1 ≤ b.number_to_win)
    (l₀ : List Cell) (hl₀ : l₀ ∈ scannedLines b)
    (hX : hasRun Cell.X b.number_to_win l₀ = true)
    (hO : ∀ l ∈ scannedLines b, hasRun Cell.O b.number_to_win l = false) :
    0 < get_winner b := by
  have hr : 0 ≤ examine_rows b := by
    rw [examine_rows_eq]
    exact sum_scans_nonneg _ _ (fun l hl => hO l (mem_scannedLines_row b l hl))
  have hc : 0 ≤ examine_columns b := by
    rw [examine_columns_eq]
    exact sum_scans_nonneg _ _ (fun l hl => hO l (mem_scannedLines_col b l hl))
  have h3 : 0 ≤ left_to_right_upper_diag b ((b.no_columns : Int) - b.number_to_win + 1) := by
    unfold left_to_right_upper_diag
    exact fn_scans_nonneg _ _ (fun l hl => hO l (mem_scannedLines_lrU b l hl))
  have h4 : 0 ≤ left_to_right_lower_diag b ((b.no_rows : Int) - b.number_to_win + 1) := by
    unfold left_to_right_lower_diag
    exact fn_scans_nonneg _ _ (fun l hl => hO l (mem_scannedLines_lrL b l hl))
  have h5 : 0 ≤ right_to_left_upper_diag b ((b.no_columns : Int) - b.number_to_win + 1) := by
    unfold right_to_left_upper_diag
    exact fn_scans_nonneg _ _ (fun l hl => hO l (mem_scannedLines_rlU b l hl))
  have h6 : 0 ≤ right_to_left_lower_diag b ((b.no_rows : Int) - b.number_to_win + 1) := by
    unfold right_to_left_lower_diag
    exact fn_scans_nonneg _ _ (fun l hl => hO l (mem_scannedLines_rlL b l hl))
  have hl₀' := hl₀
  simp only [scannedLines, List.mem_append] at hl₀'
  rcases hl₀' with ((((hg | hg) | hg) | hg) | hg) | hg
  · have : 100 ≤ examine_rows b := by
      rw [examine_rows_eq]
      exact sum_scans_ge_100 _ hntw _ (fun l hl => hO l (mem_scannedLines_row b l hl)) l₀ hg hX
    unfold get_winner examine_diagonals
    omega
  · have : 100 ≤ examine_columns b := by
      rw [examine_columns_eq]
      exact sum_scans_ge_100 _ hntw _ (fun l hl => hO l (mem_scannedLines_col b l hl)) l₀ hg hX
    unfold get_winner examine_diagonals
    omega
  · have : left_to_right_upper_diag b ((b.no_columns : Int) - b.number_to_win + 1) = 100 := by
      unfold left_to_right_upper_diag
      exact fn_scans_eq_100 _ hntw _ (fun l hl => hO l (mem_scannedLines_lrU b l hl)) l₀ hg hX
    unfold get_winner examine_diagonals
    omega
  · have : left_to_right_lower_diag b ((b.no_rows : Int) - b.number_to_win + 1) = 100 := by
      unfold left_to_right_lower_diag
      exact fn_scans_eq_100 _ hntw _ (fun l hl => hO l (mem_scannedLines_lrL b l hl)) l₀ hg hX
    unfold get_winner examine_diagonals
    omega
  · have : right_to_left_upper_diag b ((b.no_columns : Int) - b.number_to_win + 1) = 100 := by
      unfold right_to_left_upper_diag
      exact fn_scans_eq_100 _ hntw _ (fun l hl => hO l (mem_scannedLines_rlU b l hl)) l₀ hg hX
    unfold get_winner examine_diagonals
    omega
  · have : right_to_left_lower_diag b ((b.no_rows : Int) - b.number_to_win + 1) = 100 := by
      unfold right_to_left_lower_diag
      exact fn_scans_eq_100 _ hntw _ (fun l hl => hO l (mem_scannedLines_rlL b l hl)) l₀ hg hX
    unfold get_winner examine_diagonals
    omega

theorem get_winner_neg (b : GameBoard) (hntw : 1 ≤ b.number_to_win)
    (l₀ : List Cell) (hl₀ : l₀ ∈ scannedLines b)
    (hO : hasRun Cell.O b.number_to_win l₀ = true)
    (hX : ∀ l ∈ scannedLines b, hasRun Cell.X b.number_to_win l = false) :
    get_winner b < 0 := by
  have hr : examine_rows b ≤ 0 := by
    rw [examine_rows_eq]
    exact sum_scans_nonpos _ _ (fun l hl => hX l (mem_scannedLines_row b l hl))
  have hc : examine_columns b ≤ 0 := by
    rw [examine_columns_eq]
    exact sum_scans_nonpos _ _ (fun l hl => hX l (mem_scannedLines_col b l hl))
  have h3 : left_to_right_upper_diag b ((b.no_columns : Int) - b.number_to_win + 1) ≤ 0 := by
    unfold left_to_right_upper_diag
    exact fn_scans_nonpos _ _ (fun l hl => hX l (mem_scannedLines_lrU b l hl))
  have h4 : left_to_right_lower_diag b ((b.no_rows : Int) - b.number_to_win + 1) ≤ 0 := by
    unfold left_to_right_lower_diag
    exact fn_scans_nonpos _ _ (fun l hl => hX l (mem_scannedLines_lrL b l hl))
  have h5 : right_to_left_upper_diag b ((b.no_columns : Int) - b.number_to_win + 1) ≤ 0 := by
    unfold right_to_left_upper_diag
    exact fn_scans_nonpos _ _ (fun l hl => hX l (mem_scannedLines_rlU b l hl))
  have h6 : right_to_left_lower_diag b ((b.no_rows : Int) - b.number_to_win + 1) ≤ 0 := by
    unfold right_to_left_lower_diag
    exact fn_scans_nonpos _ _ (fun l hl => hX l (mem_scannedLines_rlL b l hl))
  have hl₀' := hl₀
  simp only [scannedLines, List.mem_append] at hl₀'
  rcases hl₀' with ((((hg | hg) | hg) | hg) | hg) | hg
  · have : examine_rows b ≤ -100 := by
      rw [examine_rows_eq]
      exact sum_scans_le_neg100 _ hntw _ (fun l hl => hX l (mem_scannedLines_row b l hl)) l₀ hg hO
    unfold get_winner examine_diagonals
    omega
  · have : examine_columns b ≤ -100 := by
      rw [examine_columns_eq]
      exact sum_scans_le_neg100 _ hntw _ (fun l hl => hX l (mem_scannedLines_col b l hl)) l₀ hg hO
    unfold get_winner examine_diagonals
    omega
  · have : left_to_right_upper_diag b ((b.no_columns : Int) - b.number_to_win + 1) = -100 := by
      unfold left_to_right_upper_diag
      exact fn_scans_eq_neg100 _ hntw _ (fun l hl => hX l (mem_scannedLines_lrU b l hl)) l₀ hg hO
    unfold get_winner examine_diagonals
    omega
  · have : left_to_right_lower_diag b ((b.no_rows : Int) - b.number_to_win + 1) = -100 := by
      unfold left_to_right_lower_diag
      exact fn_scans_eq_neg100 _ hntw _ (fun l hl => hX l (mem_scannedLines_lrL b l hl)) l₀ hg hO
    unfold get_winner examine_diagonals
    omega
  · have : right_to_left_upper_diag b ((b.no_columns : Int) - b.number_to_win + 1) = -100 := by
      unfold right_to_left_upper_diag
      exact fn_scans_eq_neg100 _ hntw _ (fun l hl => hX l (mem_scannedLines_rlU b l hl)) l₀ hg hO
    unfold get_winner examine_diagonals
    omega
  · have : right_to_left_lower_diag b ((b.no_rows : Int) - b.number_to_win + 1) = -100 := by
      unfold right_to_left_lower_diag
      exact fn_scans_eq_neg100 _ hntw _ (fun l hl => hX l (mem_scannedLines_rlL b l hl)) l₀ hg hO
    unfold get_winner examine_diagonals
    omega

end TicTacToe

namespace TicTacToe

theorem scannedHasWin_false_iff (c : Cell) (b : GameBoard) :
    scannedHasWin c b = false ↔
      ∀ l ∈ scannedLines b, hasRun c b.number_to_win l = false := by
  simp [scannedHasWin, List.any_eq_false]

theorem scannedHasWin_true_iff (c : Cell) (b : GameBoard) :
    scannedHasWin c b = true ↔
      ∃ l ∈ scannedLines b, hasRun c b.number_to_win l = true := by
  simp [scannedHasWin, List.any_eq_true]

/-- C3 (amended): with the summing of per-line results, the sign of
`get_winner` tracks which single player has a run on the lines the scan
actually covers, provided not both players have such runs. -/
theorem claim3_corrected (b : GameBoard) (hntw : 1 ≤ b.number_to_win)
    (hboth : ¬(scannedHasWin Cell.X b = true ∧ scannedHasWin Cell.O b = true)) :
    (0 < get_winner b ↔ scannedHasWin Cell.X b = true) ∧
    (get_winner b < 0 ↔ scannedHasWin Cell.O b = true) ∧
    (get_winner b = 0 ↔
      scannedHasWin Cell.X b = false ∧ scannedHasWin Cell.O b = false) := by
  cases hx : scannedHasWin Cell.X b with
  | false =>
    have hX := (scannedHasWin_false_iff Cell.X b).1 hx
    cases ho : scannedHasWin Cell.O b with
    | false =>
      have hO := (scannedHasWin_false_iff Cell.O b).1 ho
      have h1 := get_winner_nonpos b hX
      have h2 := get_winner_nonneg b hO
      have hw : get_winner b = 0 := by omega
      simp [hw]
    | true =>
      obtain ⟨l₀, hl₀, hrun⟩ := (scannedHasWin_true_iff Cell.O b).1 ho
      have hw := get_winner_neg b hntw l₀ hl₀ hrun hX
      have g1 : ¬(0 < get_winner b) := by omega
      have g3 : ¬(get_winner b = 0) := by omega
      simp [g1, hw, g3]
  | true =>
    have hXr := (scannedHasWin_true_iff Cell.X b).1 hx
    cases ho : scannedHasWin Cell.O b with
    | false =>
      have hO := (scannedHasWin_false_iff Cell.O b).1 ho
      obtain ⟨l₀, hl₀, hrun⟩ := hXr
      have hw := get_winner_pos b hntw l₀ hl₀ hrun hO
      have g2 : ¬(get_winner b < 0) := by omega
      have g3 : ¬(get_winner b = 0) := by omega
      simp [hw, g2, g3]
    | true => exact absurd ⟨hx, ho⟩ hboth

open Cell in
/-- The 3×3 board on which X's winning top row and O's winning middle row cancel
in the summed scan result. -/
def cancelBoard : GameBoard :=
  ⟨3, 3, 3, [[X, X, X], [O, O, O], [Empty, Empty, Empty]]⟩

/-- C3 (counterexample): on `cancelBoard`, X has a winning run in a row (a
scanned line), yet `get_winner` returns `0`, not a positive constant, because
O's winning row cancels it in the sum. -/
theorem claim3_counterexample :
    specHasWin Cell.X cancelBoard = true ∧
    scannedHasWin Cell.X cancelBoard = true ∧
    get_winner cancelBoard = 0 := by decide

open Cell in
/-- A 3×3 board where only X has a winning run. -/
def xRowBoard : GameBoard :=
  ⟨3, 3, 3, [[X, X, X], [O, O, Empty], [Empty, Empty, Empty]]⟩

/-- Witness instantiating `claim3_corrected` on `xRowBoard`. -/
theorem claim3_witness :
    (1 ≤ xRowBoard.number_to_win ∧
      ¬(scannedHasWin Cell.X xRowBoard = true ∧ scannedHasWin Cell.O xRowBoard = true)) ∧
    ((0 < get_winner xRowBoard ↔ scannedHasWin Cell.X xRowBoard = true) ∧
     (get_winner xRowBoard < 0 ↔ scannedHasWin Cell.O xRowBoard = true) ∧
     (get_winner xRowBoard = 0 ↔
       scannedHasWin Cell.X xRowBoard = false ∧ scannedHasWin Cell.O xRowBoard = false)) :=
  ⟨⟨by decide, by decide⟩, claim3_corrected xRowBoard (by decide) (by decide)⟩

/-! ## Lines shorter than the win length can never fire -/

theorem diagWalkLR_length_le (b : GameBoard) :
    ∀ (fuel i j : Nat), (diagWalkLR b fuel i j).length ≤ b.no_rows - j := by
  intro fuel
  induction fuel with
  | zero => intro i j; simp [diagWalkLR]
  | succ f ih =>
    intro i j
    by_cases hc : i < b.no_columns ∧ j < b.no_rows
    · obtain ⟨h1, h2⟩ := hc
      simp only [diagWalkLR, if_pos (And.intro h1 h2), List.length_cons]
      have := ih (i + 1) (j + 1)
      omega
    · simp [diagWalkLR, hc]

theorem diagCellsLR_length_le (b : GameBoard) (i j : Nat) :
    (diagCellsLR b i j).length ≤ b.no_rows - j :=
  diagWalkLR_length_le b _ i j

theorem diagWalkRL_length_le (b : GameBoard) :
    ∀ (fuel : Nat) (i : Int) (j : Nat), (diagWalkRL b fuel i j).length ≤ b.no_rows - j := by
  intro fuel
  induction fuel with
  | zero => intro i j; simp [diagWalkRL]
  | succ f ih =>
    intro i j
    by_cases hc : 0 ≤ i ∧ j < b.no_rows
    · obtain ⟨h1, h2⟩ := hc
      simp only [diagWalkRL, if_pos (And.intro h1 h2), List.length_cons]
      have := ih (i - 1) (j + 1)
      omega
    · simp [diagWalkRL, hc]

theorem diagCellsRL_length_le (b : GameBoard) (i : Int) (j : Nat) :
    (diagCellsRL b i j).length ≤ b.no_rows - j :=
  diagWalkRL_length_le b _ i j

theorem scannedLines_short (b : GameBoard) (hwf : wf b)
    (hr : b.no_rows < b.number_to_win) (hc : b.no_columns < b.number_to_win) :
    ∀ l ∈ scannedLines b, l.length < b.number_to_win := by
  intro l hl
  simp only [scannedLines, List.mem_append] at hl
  rcases hl with ((((hg | hg) | hg) | hg) | hg) | hg
  · rw [hwf.2 l hg]; exact hc
  · obtain ⟨ci, _, rfl⟩ := List.mem_map.1 hg
    have : (columnCells b ci).length = b.game_board.length := List.length_map _ _
    rw [this, hwf.1]; exact hr
  · obtain ⟨i, _, rfl⟩ := List.mem_map.1 hg
    have := diagCellsLR_length_le b i 0
    omega
  · obtain ⟨j, _, rfl⟩ := List.mem_map.1 hg
    have := diagCellsLR_length_le b 0 (j + 1)
    omega
  · obtain ⟨k, _, rfl⟩ := List.mem_map.1 hg
    have := diagCellsRL_length_le b ((b.no_columns : Int) - 1 - k) 0
    omega
  · obtain ⟨j, _, rfl⟩ := List.mem_map.1 hg
    have := diagCellsRL_length_le b ((b.no_columns : Int) - 1) (j + 1)
    omega

theorem firstNonzero_zeroes (l : List Int) (h : ∀ r ∈ l, r = 0) :
    firstNonzero l = 0 := by
  induction l with
  | nil => rfl
  | cons r rest ih =>
    have hr := h r (by simp)
    subst hr
    simpa [firstNonzero] using ih (fun x hx => h x (List.mem_cons_of_mem _ hx))

/-- C7: when the win length exceeds both dimensions, no line can ever reach
it, so `get_winner` is `0` on every (well-formed) cell configuration — the
configuration is handled normally by the scan, not rejected. -/
theorem claim7_oversized_winlength_draw (b : GameBoard) (hwf : wf b)
    (hr : b.no_rows < b.number_to_win) (hc : b.no_columns < b.number_to_win) :
    get_winner b = 0 := by
  have hshort := scannedLines_short b hwf hr hc
  have hscan : ∀ l ∈ scannedLines b, examine_line b.number_to_win l 0 0 = 0 := by
    intro l hl
    have := hshort l hl
    exact examine_line_short b.number_to_win l 0 0 (by omega) (by omega)
  have h1 : examine_rows b = 0 := by
    rw [examine_rows_eq]
    apply List.sum_eq_zero
    intro x hx
    obtain ⟨l, hl, rfl⟩ := List.mem_map.1 hx
    exact hscan l (mem_scannedLines_row b l hl)
  have h2 : examine_columns b = 0 := by
    rw [examine_columns_eq]
    apply List.sum_eq_zero
    intro x hx
    obtain ⟨l, hl, rfl⟩ := List.mem_map.1 hx
    exact hscan l (mem_scannedLines_col b l hl)
  have h3 : left_to_right_upper_diag b ((b.no_columns : Int) - b.number_to_win + 1) = 0 := by
    unfold left_to_right_upper_diag
    apply firstNonzero_zeroes
    intro x hx
    obtain ⟨l, hl, rfl⟩ := List.mem_map.1 hx
    exact hscan l (mem_scannedLines_lrU b l hl)
  have h4 : left_to_right_lower_diag b ((b.no_rows : Int) - b.number_to_win + 1) = 0 := by
    unfold left_to_right_lower_diag
    apply firstNonzero_zeroes
    intro x hx
    obtain ⟨l, hl, rfl⟩ := List.mem_map.1 hx
    exact hscan l (mem_scannedLines_lrL b l hl)
  have h5 : right_to_left_upper_diag b ((b.no_columns : Int) - b.number_to_win + 1) = 0 := by
    unfold right_to_left_upper_diag
    apply firstNonzero_zeroes
    intro x hx
    obtain ⟨l, hl, rfl⟩ := List.mem_map.1 hx
    exact hscan l (mem_scannedLines_rlU b l hl)
  have h6 : right_to_left_lower_diag b ((b.no_rows : Int) - b.number_to_win + 1) = 0 := by
    unfold right_to_left_lower_diag
    apply firstNonzero_zeroes
    intro x hx
    obtain ⟨l, hl, rfl⟩ := List.mem_map.1 hx
    exact hscan l (mem_scannedLines_rlL b l hl)
  unfold get_winner examine_diagonals
  omega

open Cell in
/-- A fully filled 2×2 board with win length 3. -/
def smallFullBoard : GameBoard := ⟨2, 2, 3, [[X, X], [O, X]]⟩

/-- Witness instantiating `claim7_oversized_winlength_draw` on a full 2×2
board with win length 3. -/
theorem claim7_witness :
    (wf smallFullBoard ∧ smallFullBoard.no_rows < smallFullBoard.number_to_win ∧
      smallFullBoard.no_columns < smallFullBoard.number_to_win) ∧
    get_winner smallFullBoard = 0 :=
  ⟨⟨by decide, by decide, by decide⟩,
    claim7_oversized_winlength_draw smallFullBoard (by decide) (by decide) (by decide)⟩

end TicTacToe

namespace TicTacToe

open Cell in
/-- A board with 3 rows and 5 columns, win length 3: X holds the full anti-diagonal
`(0,2),(1,1),(2,0)`, a top-right→bottom-left diagonal of length 3 that the
implementation's scan ranges never visit. -/
def diagMissBoard : GameBoard :=
  ⟨5, 3, 3,
    [[Empty, Empty, X, Empty, Empty],
     [Empty, X, Empty, Empty, Empty],
     [X, Empty, Empty, Empty, Empty]]⟩

/-- C1 (code bug): on `diagMissBoard`, X has an uninterrupted run of
`number_to_win` symbols along a top-right→bottom-left diagonal whose length
is at least `number_to_win` (the diagonal starting at the top row, column 2),
yet `get_winner` reports no winner: `_right_to_left_upper_diag` only scans
starting columns from `no_columns - 1` down to
`no_columns - number_to_win + 1`, skipping this full-length diagonal. -/
theorem claim1_diag_coverage_bug :
    specHasDiagWin Cell.X diagMissBoard = true ∧
    diagMissBoard.number_to_win ≤ (diagCellsRL diagMissBoard 2 0).length ∧
    hasRun Cell.X diagMissBoard.number_to_win (diagCellsRL diagMissBoard 2 0) = true ∧
    get_winner diagMissBoard = 0 := by decide

/-- The board reached by the legal alternating play
X(0,2), O(2,1), X(1,1), O(2,2), X(2,0), O(2,3) on a 3-row × 5-column board
with win length 3. -/
def reachBoard : GameBoard :=
  setCellB (setCellB (setCellB (setCellB (setCellB (setCellB
    (GameBoard.init 5 3 3) 0 2 Cell.X) 2 1 Cell.O) 1 1 Cell.X)
    2 2 Cell.O) 2 0 Cell.X) 2 3 Cell.O

/-- C6 (code bug): `reachBoard` is reachable by legal alternating play that
stops as soon as a winner is reported (every intermediate position has
`get_winner = 0`, because X's anti-diagonal win is missed by the diagonal
scan), yet on it X and O simultaneously hold winning runs. -/
theorem claim6_reachable_double_win :
    Reach reachBoard Cell.X ∧
    specHasWin Cell.X reachBoard = true ∧
    specHasWin Cell.O reachBoard = true := by
  refine ⟨?_, by decide, by decide⟩
  have h0 : Reach (GameBoard.init 5 3 3) Cell.X :=
    Reach.start 5 3 3 Cell.X (Or.inl rfl)
  have h1 : Reach (setCellB (GameBoard.init 5 3 3) 0 2 Cell.X) Cell.O :=
    Reach.step _ _ 0 2 h0 (by decide) (by decide) (by decide) (by decide)
  have h2 : Reach (setCellB (setCellB (GameBoard.init 5 3 3) 0 2 Cell.X) 2 1 Cell.O)
      Cell.X :=
    Reach.step _ _ 2 1 h1 (by decide) (by decide) (by decide) (by decide)
  have h3 : Reach (setCellB (setCellB (setCellB (GameBoard.init 5 3 3) 0 2 Cell.X)
      2 1 Cell.O) 1 1 Cell.X) Cell.O :=
    Reach.step _ _ 1 1 h2 (by decide) (by decide) (by decide) (by decide)
  have h4 : Reach (setCellB (setCellB (setCellB (setCellB (GameBoard.init 5 3 3)
      0 2 Cell.X) 2 1 Cell.O) 1 1 Cell.X) 2 2 Cell.O) Cell.X :=
    Reach.step _ _ 2 2 h3 (by decide) (by decide) (by decide) (by decide)
  have h5 : Reach (setCellB (setCellB (setCellB (setCellB (setCellB
      (GameBoard.init 5 3 3) 0 2 Cell.X) 2 1 Cell.O) 1 1 Cell.X) 2 2 Cell.O)
      2 0 Cell.X) Cell.O :=
    Reach.step _ _ 2 0 h4 (by decide) (by decide) (by decide) (by decide)
  exact Reach.step _ _ 2 3 h5 (by decide) (by decide) (by decide) (by decide)

/-- C4: the terminal checks of `eval_play` fire in order — a nonzero winner
value is returned unchanged at every depth, then a full board yields `0`,
then exceeding `MAX_DEPTH` yields `0`. -/
theorem claim4_eval_terminal_order (b : GameBoard) (p : Cell) (d : Nat)
    (alpha beta : Int) :
    (get_winner b ≠ 0 → eval_play b p d alpha beta = get_winner b) ∧
    (get_winner b = 0 → is_every_field_filled b = true →
      eval_play b p d alpha beta = 0) ∧
    (get_winner b = 0 → is_every_field_filled b = false → MAX_DEPTH < d →
      eval_play b p d alpha beta = 0) := by
  refine ⟨?_, ?_, ?_⟩
  · intro h
    simp [eval_play, eval_fuel, h]
  · intro h hf
    simp [eval_play, eval_fuel, h, hf]
  · intro h hf hd
    simp [eval_play, eval_fuel, h, hf, hd]

open Cell in
/-- A 3×3 board already won by X. -/
def c4WinBoard : GameBoard :=
  ⟨3, 3, 3, [[X, X, X], [Empty, O, O], [Empty, Empty, Empty]]⟩

open Cell in
/-- Full 2×2 board with win length 3 (no winner). -/
def c4DrawBoard : GameBoard := ⟨2, 2, 3, [[X, O], [O, X]]⟩

open Cell in
/-- A 2×2 board with win length 3, one empty cell, no winner. -/
def c4OpenBoard : GameBoard := ⟨2, 2, 3, [[X, O], [O, Empty]]⟩

/-- Witness instantiating each terminal branch of
`claim4_eval_terminal_order` at concrete boards and depths. -/
theorem claim4_witness :
    (get_winner c4WinBoard ≠ 0 ∧
      eval_play c4WinBoard Cell.O 7 (-999999) 999999 = get_winner c4WinBoard) ∧
    (get_winner c4DrawBoard = 0 ∧ is_every_field_filled c4DrawBoard = true ∧
      eval_play c4DrawBoard Cell.X 0 (-999999) 999999 = 0) ∧
    (get_winner c4OpenBoard = 0 ∧ is_every_field_filled c4OpenBoard = false ∧
      MAX_DEPTH < 51 ∧ eval_play c4OpenBoard Cell.X 51 (-999999) 999999 = 0) :=
  ⟨⟨by decide,
      (claim4_eval_terminal_order c4WinBoard Cell.O 7 (-999999) 999999).1 (by decide)⟩,
   ⟨by decide, by decide,
      (claim4_eval_terminal_order c4DrawBoard Cell.X 0 (-999999) 999999).2.1
        (by decide) (by decide)⟩,
   ⟨by decide, by decide, by decide,
      (claim4_eval_terminal_order c4OpenBoard Cell.X 51 (-999999) 999999).2.2
        (by decide) (by decide) (by decide)⟩⟩

end TicTacToe

namespace TicTacToe

/-! ## List indexing helpers -/

theorem getD_set_self {α : Type} (l : List α) (n : Nat) (a d : α) (h : n < l.length) :
    (l.set n a).getD n d = a := by
  induction l generalizing n with
  | nil => simp at h
  | cons x t ih =>
    cases n with
    | zero => rfl
    | succ m => simpa using ih m (by simpa using h)

theorem getD_set_ne {α : Type} (l : List α) (n m : Nat) (a d : α) (h : n ≠ m) :
    (l.set n a).getD m d = l.getD m d := by
  induction l generalizing n m with
  | nil => simp
  | cons x t ih =>
    cases n with
    | zero =>
      cases m with
      | zero => exact absurd rfl h
      | succ k => rfl
    | succ n' =>
      cases m with
      | zero => rfl
      | succ k => simpa using ih n' k (by omega)

theorem set_of_length_le {α : Type} (l : List α) (n : Nat) (a : α)
    (h : l.length ≤ n) : l.set n a = l := by
  induction l generalizing n with
  | nil => rfl
  | cons x t ih =>
    cases n with
    | zero => simp at h
    | succ m => simpa using ih m (by simpa using h)

theorem getD_mem {α : Type} (l : List α) (n : Nat) (d : α) (h : n < l.length) :
    l.getD n d ∈ l := by
  induction l generalizing n with
  | nil => simp at h
  | cons x t ih =>
    cases n with
    | zero => simp [List.getD]
    | succ m =>
      have : (x :: t).getD (m + 1) d = t.getD m d := rfl
      rw [this]
      exact List.mem_cons_of_mem _ (ih m (by simpa using h))

theorem getD_row_length (b : GameBoard) (hwf : wf b) (r : Nat) (hr : r < b.no_rows) :
    (b.game_board.getD r []).length = b.no_columns := by
  have hlen : r < b.game_board.length := by rw [hwf.1]; exact hr
  exact hwf.2 _ (getD_mem _ _ _ hlen)

/-! ## Cell-level description of `setCellB` -/

theorem cellAt_setCellB_self (b : GameBoard) (hwf : wf b) (r c : Nat)
    (hr : r < b.no_rows) (hc : c < b.no_columns) (p : Cell) :
    cellAt (setCellB b r c p) r c = p := by
  have hrow : r < b.game_board.length := by rw [hwf.1]; exact hr
  have hcol : c < (b.game_board.getD r []).length := by
    rw [getD_row_length b hwf r hr]; exact hc
  unfold cellAt setCellB
  dsimp only
  rw [getD_set_self _ _ _ _ hrow]
  exact getD_set_self _ _ _ _ hcol

theorem cellAt_setCellB_other (b : GameBoard) (r c r' c' : Nat) (p : Cell)
    (h : (r', c') ≠ (r, c)) :
    cellAt (setCellB b r c p) r' c' = cellAt b r' c' := by
  unfold cellAt setCellB
  dsimp only
  by_cases hr : r' = r
  · subst hr
    have hcne : c ≠ c' := by
      intro hcc
      exact h (by rw [hcc])
    by_cases hlen : r' < b.game_board.length
    · rw [getD_set_self _ _ _ _ hlen]
      exact getD_set_ne _ _ _ _ _ hcne
    · rw [set_of_length_le _ _ _ (by omega)]
  · rw [getD_set_ne _ _ _ _ _ (fun hh => hr hh.symm)]

theorem setCellB_no_rows (b : GameBoard) (r c : Nat) (p : Cell) :
    (setCellB b r c p).no_rows = b.no_rows := rfl

theorem setCellB_no_columns (b : GameBoard) (r c : Nat) (p : Cell) :
    (setCellB b r c p).no_columns = b.no_columns := rfl

theorem wf_setCellB (b : GameBoard) (hwf : wf b) (r c : Nat) (p : Cell) :
    wf (setCellB b r c p) := by
  unfold wf setCellB
  dsimp only
  constructor
  · rw [List.length_set]; exact hwf.1
  · intro row hrow
    by_cases hlen : r < b.game_board.length
    · rcases List.mem_or_eq_of_mem_set hrow with h | h
      · exact hwf.2 row h
      · subst h
        rw [List.length_set]
        exact hwf.2 _ (getD_mem _ _ _ hlen)
    · rw [set_of_length_le _ _ _ (by omega)] at hrow
      exact hwf.2 row hrow

/-! ## Characterization of `insert_symbol` -/

theorem pyIdx_nonneg (n : Nat) (i : Int) (h0 : 0 ≤ i) (h1 : i < n) :
    pyIdx n i = some i.toNat := by
  unfold pyIdx
  have hneg : ¬(i < 0) := by omega
  simp only [hneg, if_false, ite_false]
  rw [if_pos ⟨h0, h1⟩]

theorem pyIdx_neg (n : Nat) (i : Int) (h0 : i < 0) (h1 : 0 ≤ i + n) :
    pyIdx n i = some (i + n).toNat := by
  unfold pyIdx
  simp only [h0, if_true, ite_true]
  rw [if_pos ⟨h1, by omega⟩]

/-- Python's effective index: nonnegative indices stand, negative ones count
from the end. -/
def pyEff (n : Nat) (i : Int) : Nat :=
  (if i < 0 then i + n else i).toNat

theorem pyIdx_eq_pyEff (n : Nat) (i : Int) (h1 : -(n : Int) ≤ i) (h2 : i < n) :
    pyIdx n i = some (pyEff n i) := by
  unfold pyEff
  by_cases h : i < 0
  · rw [pyIdx_neg n i h (by omega)]
    simp [h]
  · rw [pyIdx_nonneg n i (by omega) h2]
    simp [h]

theorem pyEff_lt (n : Nat) (i : Int) (h1 : -(n : Int) ≤ i) (h2 : i < n) :
    pyEff n i < n := by
  unfold pyEff
  split <;> omega

end TicTacToe

namespace TicTacToe

theorem get?_eq_getD {α : Type} (l : List α) (n : Nat) (d : α) (h : n < l.length) :
    l.get? n = some (l.getD n d) := by
  induction l generalizing n with
  | nil => simp at h
  | cons x t ih =>
    cases n with
    | zero => rfl
    | succ m => simpa using ih m (by simpa using h)

theorem pyEff_nonneg (n : Nat) (i : Int) (h : 0 ≤ i) : pyEff n i = i.toNat := by
  unfold pyEff
  rw [if_neg (by omega)]

theorem insert_symbol_out_of_range (b : GameBoard) (row column : Int) (s : Cell)
    (h : (b.no_rows : Int) ≤ row ∨ (b.no_columns : Int) ≤ column) :
    insert_symbol b row column s = some (b, false) := by
  unfold insert_symbol
  rw [if_pos h]

theorem insert_symbol_in_range (b : GameBoard) (hwf : wf b) (row column : Int) (s : Cell)
    (hr1 : -(b.no_rows : Int) ≤ row) (hr2 : row < b.no_rows)
    (hc1 : -(b.no_columns : Int) ≤ column) (hc2 : column < b.no_columns) :
    (cellAt b (pyEff b.no_rows row) (pyEff b.no_columns column) = Cell.Empty →
      insert_symbol b row column s
        = some (setCellB b (pyEff b.no_rows row) (pyEff b.no_columns column) s, true)) ∧
    (cellAt b (pyEff b.no_rows row) (pyEff b.no_columns column) ≠ Cell.Empty →
      insert_symbol b row column s = some (b, false)) := by
  have her : pyEff b.no_rows row < b.no_rows := pyEff_lt _ _ hr1 hr2
  have hec : pyEff b.no_columns column < b.no_columns := pyEff_lt _ _ hc1 hc2
  have hlen1 : pyEff b.no_rows row < b.game_board.length := by rw [hwf.1]; exact her
  have hrowlen : (b.game_board.getD (pyEff b.no_rows row) []).length = b.no_columns :=
    getD_row_length b hwf _ her
  have hlen2 : pyEff b.no_columns column
      < (b.game_board.getD (pyEff b.no_rows row) []).length := by
    rw [hrowlen]; exact hec
  have hcond : ¬((b.no_rows : Int) ≤ row ∨ (b.no_columns : Int) ≤ column) := by
    push_neg
    exact ⟨hr2, hc2⟩
  have hpg1 : pyGet b.game_board row
      = some (b.game_board.getD (pyEff b.no_rows row) []) := by
    unfold pyGet
    rw [hwf.1, pyIdx_eq_pyEff _ _ hr1 hr2]
    exact get?_eq_getD _ _ _ hlen1
  have hpg2 : pyGet (b.game_board.getD (pyEff b.no_rows row) []) column
      = some ((b.game_board.getD (pyEff b.no_rows row) []).getD
          (pyEff b.no_columns column) Cell.Empty) := by
    unfold pyGet
    rw [hrowlen, pyIdx_eq_pyEff _ _ hc1 hc2]
    exact get?_eq_getD _ _ _ hlen2
  have hcell : (b.game_board.getD (pyEff b.no_rows row) []).getD
      (pyEff b.no_columns column) Cell.Empty
      = cellAt b (pyEff b.no_rows row) (pyEff b.no_columns column) := rfl
  constructor
  · intro hemp
    unfold insert_symbol
    rw [if_neg hcond, hpg1]
    dsimp only
    rw [hpg2]
    dsimp only
    rw [hcell, hemp]
    rw [if_neg (by simp)]
    have hps1 : pySet (b.game_board.getD (pyEff b.no_rows row) []) column s
        = some ((b.game_board.getD (pyEff b.no_rows row) []).set
            (pyEff b.no_columns column) s) := by
      unfold pySet
      rw [hrowlen, pyIdx_eq_pyEff _ _ hc1 hc2]
      rfl
    rw [hps1]
    dsimp only
    have hps2 : pySet b.game_board row
        ((b.game_board.getD (pyEff b.no_rows row) []).set (pyEff b.no_columns column) s)
        = some (b.game_board.set (pyEff b.no_rows row)
            ((b.game_board.getD (pyEff b.no_rows row) []).set
              (pyEff b.no_columns column) s)) := by
      unfold pySet
      rw [hwf.1, pyIdx_eq_pyEff _ _ hr1 hr2]
      rfl
    rw [hps2]
    rfl
  · intro hne
    unfold insert_symbol
    rw [if_neg hcond, hpg1]
    dsimp only
    rw [hpg2]
    dsimp only
    rw [hcell]
    rw [if_pos hne]

/-- C9: `insert_symbol` never reports an out-of-range failure for a negative
index down to `-len`: the bounds check only rejects indices that are too
large, so a negative row/column addresses a cell from the end of the grid
(Python indexing), and if that cell is empty the call succeeds and mutates
it. -/
theorem claim9_negative_index_insert (b : GameBoard) (hwf : wf b)
    (row column : Int) (s : Cell)
    (hr1 : -(b.no_rows : Int) ≤ row) (hr2 : row < b.no_rows)
    (hc1 : -(b.no_columns : Int) ≤ column) (hc2 : column < b.no_columns)
    (hemp : cellAt b (pyEff b.no_rows row) (pyEff b.no_columns column) = Cell.Empty) :
    insert_symbol b row column s
      = some (setCellB b (pyEff b.no_rows row) (pyEff b.no_columns column) s, true) :=
  (insert_symbol_in_range b hwf row column s hr1 hr2 hc1 hc2).1 hemp

/-- Witness: on an empty 3×3 board, `insert_symbol(-1, -2, X)` succeeds and
fills cell `(2, 1)`. -/
theorem claim9_witness :
    (wf (GameBoard.init 3 3 3) ∧
      -((GameBoard.init 3 3 3).no_rows : Int) ≤ -1 ∧
      (-1 : Int) < (GameBoard.init 3 3 3).no_rows ∧
      -((GameBoard.init 3 3 3).no_columns : Int) ≤ -2 ∧
      (-2 : Int) < (GameBoard.init 3 3 3).no_columns ∧
      cellAt (GameBoard.init 3 3 3) (pyEff 3 (-1)) (pyEff 3 (-2)) = Cell.Empty) ∧
    insert_symbol (GameBoard.init 3 3 3) (-1) (-2) Cell.X
      = some (setCellB (GameBoard.init 3 3 3) (pyEff 3 (-1)) (pyEff 3 (-2)) Cell.X, true) :=
  ⟨⟨by decide, by decide, by decide, by decide, by decide, by decide⟩,
    claim9_negative_index_insert (GameBoard.init 3 3 3) (by decide) (-1) (-2) Cell.X
      (by decide) (by decide) (by decide) (by decide) (by decide)⟩

/-- C2 (counterexample): `insert_symbol` on the out-of-bounds coordinate
`row = -1` of an empty 3×3 board does not fail — it succeeds and mutates
cell `(2, 0)` via Python negative indexing, refuting "succeeds iff the row
and column are within the board's bounds". -/
theorem claim2_counterexample :
    ¬(0 ≤ (-1 : Int)) ∧
    insert_symbol (GameBoard.init 3 3 3) (-1) 0 Cell.X
      = some (setCellB (GameBoard.init 3 3 3) 2 0 Cell.X, true) ∧
    setCellB (GameBoard.init 3 3 3) 2 0 Cell.X ≠ GameBoard.init 3 3 3 := by decide

/-- C2 (amended): restricted to nonnegative coordinates, `insert_symbol`
succeeds and mutates exactly the target cell from `Empty` to the symbol iff
the coordinates are in bounds and the cell is empty; otherwise it mutates
nothing and reports failure. -/
theorem claim2_corrected (b : GameBoard) (hwf : wf b) (row column : Int) (s : Cell)
    (hr0 : 0 ≤ row) (hc0 : 0 ≤ column) :
    (row < (b.no_rows : Int) ∧ column < (b.no_columns : Int) ∧
        cellAt b row.toNat column.toNat = Cell.Empty →
      insert_symbol b row column s = some (setCellB b row.toNat column.toNat s, true) ∧
      cellAt (setCellB b row.toNat column.toNat s) row.toNat column.toNat = s ∧
      (∀ r' c' : Nat, (r', c') ≠ (row.toNat, column.toNat) →
        cellAt (setCellB b row.toNat column.toNat s) r' c' = cellAt b r' c')) ∧
    (¬(row < (b.no_rows : Int) ∧ column < (b.no_columns : Int) ∧
        cellAt b row.toNat column.toNat = Cell.Empty) →
      insert_symbol b row column s = some (b, false)) := by
  constructor
  · rintro ⟨h1, h2, h3⟩
    have hin := insert_symbol_in_range b hwf row column s (by omega) h1 (by omega) h2
    rw [pyEff_nonneg _ _ hr0, pyEff_nonneg _ _ hc0] at hin
    refine ⟨hin.1 h3, ?_, ?_⟩
    · exact cellAt_setCellB_self b hwf _ _ (by omega) (by omega) s
    · intro r' c' hne
      exact cellAt_setCellB_other b _ _ _ _ s hne
  · intro hno
    by_cases hb : row < (b.no_rows : Int) ∧ column < (b.no_columns : Int)
    · have h3 : cellAt b row.toNat column.toNat ≠ Cell.Empty := by
        intro hcc
        exact hno ⟨hb.1, hb.2, hcc⟩
      have hin := insert_symbol_in_range b hwf row column s (by omega) hb.1 (by omega) hb.2
      rw [pyEff_nonneg _ _ hr0, pyEff_nonneg _ _ hc0] at hin
      exact hin.2 h3
    · apply insert_symbol_out_of_range
      omega

open Cell in
/-- A 2×2 board used to instantiate the amended C2. -/
def c2Board : GameBoard := ⟨2, 2, 2, [[Empty, Empty], [X, Empty]]⟩

/-- Witness instantiating `claim2_corrected`: inserting at in-range empty
cell `(0, 1)` of `c2Board` succeeds. -/
theorem claim2_witness :
    (wf c2Board ∧ 0 ≤ (0 : Int) ∧ 0 ≤ (1 : Int) ∧
      (0 : Int) < (c2Board.no_rows : Int) ∧ (1 : Int) < (c2Board.no_columns : Int) ∧
      cellAt c2Board 0 1 = Cell.Empty) ∧
    insert_symbol c2Board 0 1 Cell.X = some (setCellB c2Board 0 1 Cell.X, true) :=
  ⟨⟨by decide, by decide, by decide, by decide, by decide, by decide⟩,
    ((claim2_corrected c2Board (by decide) 0 1 Cell.X (by decide) (by decide)).1
      ⟨by decide, by decide, by decide⟩).1⟩

end TicTacToe

namespace TicTacToe

/-! ## Python `min(..., key=...)`: first minimum wins -/

theorem pyMinFold_spec {α : Type} (key : α → Int) :
    ∀ (l : List α) (cur : α),
      ∃ l₁ l₂, cur :: l = l₁ ++ pyMinFold key cur l :: l₂ ∧
        (∀ x ∈ l₁, key (pyMinFold key cur l) < key x) ∧
        (∀ x ∈ l₂, key (pyMinFold key cur l) ≤ key x) := by
  intro l
  induction l with
  | nil => intro cur; exact ⟨[], [], rfl, by simp, by simp⟩
  | cons x t ih =>
    intro cur
    by_cases hx : key x < key cur
    · have heq : pyMinFold key cur (x :: t) = pyMinFold key x t := by
        simp [pyMinFold, hx]
      rw [heq]
      obtain ⟨l₁, l₂, hdec, hlt, hle⟩ := ih x
      have hkmx : key (pyMinFold key x t) ≤ key x := by
        cases l₁ with
        | nil =>
          have hx' : x = pyMinFold key x t := by
            rw [List.nil_append] at hdec
            injection hdec with h1 _
          rw [← hx']
        | cons z l₁' =>
          have hz : x = z := by
            rw [List.cons_append] at hdec
            injection hdec with h1 _
          exact le_of_lt (hlt x (by rw [hz]; exact List.mem_cons_self z l₁'))
      refine ⟨cur :: l₁, l₂, ?_, ?_, hle⟩
      · rw [List.cons_append, ← hdec]
      · intro y hy
        rcases List.mem_cons.1 hy with rfl | hy'
        · omega
        · exact hlt y hy'
    · have heq : pyMinFold key cur (x :: t) = pyMinFold key cur t := by
        simp [pyMinFold, hx]
      rw [heq]
      obtain ⟨l₁, l₂, hdec, hlt, hle⟩ := ih cur
      cases l₁ with
      | nil =>
        rw [List.nil_append] at hdec
        have hcur : cur = pyMinFold key cur t := by injection hdec with h1 _
        have ht : t = l₂ := by injection hdec with _ h2
        refine ⟨[], x :: t, ?_, by simp, ?_⟩
        · rw [List.nil_append, ← hcur]
        · intro y hy
          rcases List.mem_cons.1 hy with rfl | hy'
          · rw [← hcur]; omega
          · exact hle y (ht ▸ hy')
      | cons z l₁' =>
        rw [List.cons_append] at hdec
        have hz : cur = z := by injection hdec with h1 _
        have ht : t = l₁' ++ pyMinFold key cur t :: l₂ := by injection hdec with _ h2
        refine ⟨cur :: x :: l₁', l₂, ?_, ?_, hle⟩
        · rw [List.cons_append, List.cons_append, ← ht]
        · intro y hy
          rcases List.mem_cons.1 hy with hycur | hy'
          · rw [hycur]
            exact hlt cur (by rw [hz]; exact List.mem_cons_self z l₁')
          · rcases List.mem_cons.1 hy' with hyx | hy''
            · have h1 : key (pyMinFold key cur t) < key cur :=
                hlt cur (by rw [hz]; exact List.mem_cons_self z l₁')
              rw [hyx]
              omega
            · exact hlt y (List.mem_cons_of_mem _ hy'')

theorem filterMap_eq_append_cons {α β : Type} (f : α → Option β) :
    ∀ (u : List α) (l₁ : List β) (m : β) (l₂ : List β),
      u.filterMap f = l₁ ++ m :: l₂ →
      ∃ u₁ a u₂, u = u₁ ++ a :: u₂ ∧ f a = some m ∧
        u₁.filterMap f = l₁ ∧ u₂.filterMap f = l₂ := by
  intro u
  induction u with
  | nil =>
    intro l₁ m l₂ h
    rw [List.filterMap_nil] at h
    exact absurd h.symm (by simp)
  | cons a u' ih =>
    intro l₁ m l₂ h
    cases hfa : f a with
    | none =>
      rw [List.filterMap_cons_none hfa] at h
      obtain ⟨u₁, a', u₂, hdec, hfa', h1, h2⟩ := ih l₁ m l₂ h
      exact ⟨a :: u₁, a', u₂, by rw [hdec]; rfl, hfa',
        by rw [List.filterMap_cons_none hfa, h1], h2⟩
    | some bb =>
      rw [List.filterMap_cons_some hfa] at h
      cases l₁ with
      | nil =>
        rw [List.nil_append] at h
        have hb : bb = m := by injection h with h1 _
        have hrest : u'.filterMap f = l₂ := by injection h with _ h2
        exact ⟨[], a, u', rfl, by rw [hfa, hb], rfl, hrest⟩
      | cons cc l₁' =>
        rw [List.cons_append] at h
        have hb : bb = cc := by injection h with h1 _
        have hrest : u'.filterMap f = l₁' ++ m :: l₂ := by injection h with _ h2
        obtain ⟨u₁, a', u₂, hdec, hfa', h1, h2⟩ := ih l₁' m l₂ hrest
        exact ⟨a :: u₁, a', u₂, by rw [hdec]; rfl, hfa',
          by rw [List.filterMap_cons_some hfa, h1, hb], h2⟩

theorem mem_cellsList (b : GameBoard) (r c : Nat) :
    (r, c) ∈ cellsList b ↔ r < b.no_rows ∧ c < b.no_columns := by
  simp [cellsList]

end TicTacToe

namespace TicTacToe

/-- A decided board is returned by `eval_play` unchanged at every depth. -/
theorem eval_play_winner (b : GameBoard) (p : Cell) (d : Nat) (alpha beta : Int)
    (h : get_winner b ≠ 0) : eval_play b p d alpha beta = get_winner b := by
  simp [eval_play, eval_fuel, h]

/-- The score `ai_plays` assigns to the candidate move `(r, c)` for `player`:
the board with that move applied, evaluated with the opponent to move, depth
1 and the full alpha-beta window. -/
def aiKey (b : GameBoard) (player : Cell) (r c : Nat) : Int :=
  eval_play (setCellB b r c player) (nextPlayer player) 1 (-999999) 999999

/-- Master characterization of `ai_plays`: on a board with an empty cell it
commits the board with exactly one move applied, at an empty cell whose
`aiKey` is minimal, and strictly below every earlier (row-major) empty
cell's key. -/
theorem ai_plays_spec (b : GameBoard) (p : Cell)
    (hne : ∃ rc, rc ∈ cellsList b ∧ cellAt b rc.1 rc.2 = Cell.Empty) :
    ∃ (r c : Nat) (cells₁ cells₂ : List (Nat × Nat)),
      cellsList b = cells₁ ++ (r, c) :: cells₂ ∧
      cellAt b r c = Cell.Empty ∧
      ai_plays p b = some (setCellB b r c p) ∧
      (∀ rc ∈ cells₁, cellAt b rc.1 rc.2 = Cell.Empty →
        aiKey b p r c < aiKey b p rc.1 rc.2) ∧
      (∀ rc ∈ cells₂, cellAt b rc.1 rc.2 = Cell.Empty →
        aiKey b p r c ≤ aiKey b p rc.1 rc.2) := by
  classical
  obtain ⟨rc₀, hmem₀, hemp₀⟩ := hne
  have hps : possible_states b p = (cellsList b).filterMap (fun rc =>
      if cellAt b rc.1 rc.2 = Cell.Empty then
        some (setCellB b rc.1 rc.2 p, aiKey b p rc.1 rc.2)
      else none) := rfl
  have hmem_ps : (setCellB b rc₀.1 rc₀.2 p, aiKey b p rc₀.1 rc₀.2)
      ∈ possible_states b p := by
    rw [hps]
    exact List.mem_filterMap.2 ⟨rc₀, hmem₀, by simp [hemp₀]⟩
  cases hps0 : possible_states b p with
  | nil => rw [hps0] at hmem_ps; cases hmem_ps
  | cons a rest =>
    have hai : ai_plays p b
        = some (pyMinFold (fun s : GameBoard × Int => s.2) a rest).1 := by
      simp [ai_plays, pyMin, hps0]
    obtain ⟨l₁, l₂, hdec, hlt, hle⟩ :=
      pyMinFold_spec (fun s : GameBoard × Int => s.2) rest a
    have hfm : (cellsList b).filterMap (fun rc =>
        if cellAt b rc.1 rc.2 = Cell.Empty then
          some (setCellB b rc.1 rc.2 p, aiKey b p rc.1 rc.2)
        else none)
        = l₁ ++ pyMinFold (fun s : GameBoard × Int => s.2) a rest :: l₂ := by
      rw [← hps, hps0]
      exact hdec
    obtain ⟨u₁, rc₁, u₂, hudec, hfrc, hfm1, hfm2⟩ :=
      filterMap_eq_append_cons _ (cellsList b) _ _ _ hfm
    have hemp₁ : cellAt b rc₁.1 rc₁.2 = Cell.Empty := by
      by_cases hc : cellAt b rc₁.1 rc₁.2 = Cell.Empty
      · exact hc
      · simp [hc] at hfrc
    have hm_eq : pyMinFold (fun s : GameBoard × Int => s.2) a rest
        = (setCellB b rc₁.1 rc₁.2 p, aiKey b p rc₁.1 rc₁.2) := by
      simp [hemp₁] at hfrc
      exact hfrc.symm
    refine ⟨rc₁.1, rc₁.2, u₁, u₂, by rw [hudec], hemp₁, ?_, ?_, ?_⟩
    · rw [hai, hm_eq]
    · intro rc hrc hempr
      have hmem1 : (setCellB b rc.1 rc.2 p, aiKey b p rc.1 rc.2) ∈ l₁ := by
        rw [← hfm1]
        exact List.mem_filterMap.2 ⟨rc, hrc, by simp [hempr]⟩
      have := hlt _ hmem1
      rw [hm_eq] at this
      exact this
    · intro rc hrc hempr
      have hmem2 : (setCellB b rc.1 rc.2 p, aiKey b p rc.1 rc.2) ∈ l₂ := by
        rw [← hfm2]
        exact List.mem_filterMap.2 ⟨rc, hrc, by simp [hempr]⟩
      have := hle _ hmem2
      rw [hm_eq] at this
      exact this

/-- C5: on a non-terminal board with an empty cell, `ai_plays` builds one
candidate per row-major empty cell, scores it by `eval_play` with the
opponent to move at depth 1 over the full window (`aiKey`), commits the
board with exactly that one minimal-score move applied — strictly better
than every earlier row-major candidate (first-minimum tie-break) and at
least as good as every later one — and never a board with no move applied. -/
theorem claim5_ai_selects_min (b : GameBoard) (hwf : wf b) (p : Cell)
    (hterm : get_winner b = 0)
    (hne : ∃ r c, r < b.no_rows ∧ c < b.no_columns ∧ cellAt b r c = Cell.Empty) :
    ∃ (r c : Nat) (cells₁ cells₂ : List (Nat × Nat)),
      r < b.no_rows ∧ c < b.no_columns ∧ cellAt b r c = Cell.Empty ∧
      cellsList b = cells₁ ++ (r, c) :: cells₂ ∧
      ai_plays p b = some (setCellB b r c p) ∧
      cellAt (setCellB b r c p) r c = p ∧
      (∀ r' c' : Nat, (r', c') ≠ (r, c) →
        cellAt (setCellB b r c p) r' c' = cellAt b r' c') ∧
      (∀ rc ∈ cells₁, cellAt b rc.1 rc.2 = Cell.Empty →
        aiKey b p r c < aiKey b p rc.1 rc.2) ∧
      (∀ rc ∈ cells₂, cellAt b rc.1 rc.2 = Cell.Empty →
        aiKey b p r c ≤ aiKey b p rc.1 rc.2) := by
  obtain ⟨r0, c0, hr0, hc0, hemp0⟩ := hne
  obtain ⟨r, c, cells₁, cells₂, hdec, hemp, hai, hlt, hle⟩ :=
    ai_plays_spec b p ⟨(r0, c0), (mem_cellsList b r0 c0).2 ⟨hr0, hc0⟩, hemp0⟩
  have hmem : (r, c) ∈ cellsList b := by
    rw [hdec]
    exact List.mem_append.2 (Or.inr (List.mem_cons_self _ _))
  have hrc := (mem_cellsList b r c).1 hmem
  exact ⟨r, c, cells₁, cells₂, hrc.1, hrc.2, hemp, hdec, hai,
    cellAt_setCellB_self b hwf r c hrc.1 hrc.2 p,
    fun r' c' hne' => cellAt_setCellB_other b r c r' c' p hne', hlt, hle⟩

open Cell in
/-- A 2×2 win-2 board with one X placed, used to instantiate C5. -/
def c5Board : GameBoard := ⟨2, 2, 2, [[X, Empty], [Empty, Empty]]⟩

/-- Witness instantiating `claim5_ai_selects_min` on `c5Board` with O to move. -/
theorem claim5_witness :
    (wf c5Board ∧ get_winner c5Board = 0 ∧
      (∃ r c, r < c5Board.no_rows ∧ c < c5Board.no_columns ∧
        cellAt c5Board r c = Cell.Empty)) ∧
    (∃ (r c : Nat) (cells₁ cells₂ : List (Nat × Nat)),
      r < c5Board.no_rows ∧ c < c5Board.no_columns ∧ cellAt c5Board r c = Cell.Empty ∧
      cellsList c5Board = cells₁ ++ (r, c) :: cells₂ ∧
      ai_plays Cell.O c5Board = some (setCellB c5Board r c Cell.O) ∧
      cellAt (setCellB c5Board r c Cell.O) r c = Cell.O ∧
      (∀ r' c' : Nat, (r', c') ≠ (r, c) →
        cellAt (setCellB c5Board r c Cell.O) r' c' = cellAt c5Board r' c') ∧
      (∀ rc ∈ cells₁, cellAt c5Board rc.1 rc.2 = Cell.Empty →
        aiKey c5Board Cell.O r c < aiKey c5Board Cell.O rc.1 rc.2) ∧
      (∀ rc ∈ cells₂, cellAt c5Board rc.1 rc.2 = Cell.Empty →
        aiKey c5Board Cell.O r c ≤ aiKey c5Board Cell.O rc.1 rc.2)) :=
  ⟨⟨by decide, by decide, ⟨0, 1, by decide, by decide, by decide⟩⟩,
    claim5_ai_selects_min c5Board (by decide) Cell.O (by decide)
      ⟨0, 1, by decide, by decide, by decide⟩⟩

end TicTacToe

namespace TicTacToe

open Cell in
/-- A 3×3 board where O can win immediately at `(0,2)` (completing row 0) and
also at `(2,0)` (completing column 0): both candidates score `-100`, and the
first-minimum tie-break keeps the earlier row-major move `(0,2)`. -/
def c8TieBoard : GameBoard :=
  ⟨3, 3, 3, [[O, O, Empty], [O, O, X], [Empty, X, X]]⟩

/-- C8 (counterexample): O has two in a row in column 0 with the open third
cell `(2,0)` and it is O's move, yet `ai_plays` does not select the move
completing that line — it selects `(0,2)`, an equally scored earlier
candidate completing a different line. -/
theorem claim8_counterexample :
    cellAt c8TieBoard 0 0 = Cell.O ∧ cellAt c8TieBoard 1 0 = Cell.O ∧
    cellAt c8TieBoard 2 0 = Cell.Empty ∧
    get_winner (setCellB c8TieBoard 2 0 Cell.O) < 0 ∧
    ai_plays Cell.O c8TieBoard = some (setCellB c8TieBoard 0 2 Cell.O) ∧
    setCellB c8TieBoard 0 2 Cell.O ≠ setCellB c8TieBoard 2 0 Cell.O := by decide

/-- C8 (amended): when filling the empty cell `(r, c)` with O yields a board
`get_winner` reports as an O win, `ai_plays` commits a move whose score is
at most that win's value; and it commits exactly `(r, c)` whenever every
other candidate scores strictly worse than that value. -/
theorem claim8_corrected (b : GameBoard) (hwf : wf b) (r c : Nat)
    (hr : r < b.no_rows) (hc : c < b.no_columns)
    (hemp : cellAt b r c = Cell.Empty)
    (hwin : get_winner (setCellB b r c Cell.O) < 0) :
    ∃ r' c' : Nat,
      r' < b.no_rows ∧ c' < b.no_columns ∧ cellAt b r' c' = Cell.Empty ∧
      ai_plays Cell.O b = some (setCellB b r' c' Cell.O) ∧
      aiKey b Cell.O r' c' ≤ get_winner (setCellB b r c Cell.O) ∧
      ((∀ r₂ c₂ : Nat, r₂ < b.no_rows → c₂ < b.no_columns →
          cellAt b r₂ c₂ = Cell.Empty → (r₂, c₂) ≠ (r, c) →
          get_winner (setCellB b r c Cell.O) < aiKey b Cell.O r₂ c₂) →
        ai_plays Cell.O b = some (setCellB b r c Cell.O)) := by
  have hkey : aiKey b Cell.O r c = get_winner (setCellB b r c Cell.O) :=
    eval_play_winner _ _ _ _ _ (by omega)
  obtain ⟨r', c', cells₁, cells₂, hdec, hemp', hai, hlt, hle⟩ :=
    ai_plays_spec b Cell.O ⟨(r, c), (mem_cellsList b r c).2 ⟨hr, hc⟩, hemp⟩
  have hmem' : (r', c') ∈ cellsList b := by
    rw [hdec]
    exact List.mem_append.2 (Or.inr (List.mem_cons_self _ _))
  have hbounds' := (mem_cellsList b r' c').1 hmem'
  have hsel_le : aiKey b Cell.O r' c' ≤ aiKey b Cell.O r c := by
    have hmemrc : (r, c) ∈ cells₁ ++ (r', c') :: cells₂ := by
      rw [← hdec]
      exact (mem_cellsList b r c).2 ⟨hr, hc⟩
    rcases List.mem_append.1 hmemrc with h1 | h1
    · exact le_of_lt (hlt (r, c) h1 hemp)
    · rcases List.mem_cons.1 h1 with heq | h2
      · have hr' : r' = r ∧ c' = c := by
          have h1 := congrArg Prod.fst heq
          have h2 := congrArg Prod.snd heq
          exact ⟨h1.symm, h2.symm⟩
        rw [hr'.1, hr'.2]
      · exact hle (r, c) h2 hemp
  refine ⟨r', c', hbounds'.1, hbounds'.2, hemp', hai, by omega, ?_⟩
  intro hstrict
  by_cases heq : (r', c') = (r, c)
  · have hrr : r' = r := congrArg Prod.fst heq
    have hcc : c' = c := congrArg Prod.snd heq
    rw [← hrr, ← hcc]
    exact hai
  · exfalso
    have := hstrict r' c' hbounds'.1 hbounds'.2 hemp' heq
    omega

open Cell in
/-- A 1×3 board with O pair and the open completing cell `(0,2)`. -/
def c8WinBoard : GameBoard := ⟨3, 1, 3, [[O, O, Empty]]⟩

/-- Witness instantiating `claim8_corrected` on `c8WinBoard`. -/
theorem claim8_witness :
    (wf c8WinBoard ∧ 0 < c8WinBoard.no_rows ∧ 2 < c8WinBoard.no_columns ∧
      cellAt c8WinBoard 0 2 = Cell.Empty ∧
      get_winner (setCellB c8WinBoard 0 2 Cell.O) < 0) ∧
    (∃ r' c' : Nat,
      r' < c8WinBoard.no_rows ∧ c' < c8WinBoard.no_columns ∧
      cellAt c8WinBoard r' c' = Cell.Empty ∧
      ai_plays Cell.O c8WinBoard = some (setCellB c8WinBoard r' c' Cell.O) ∧
      aiKey c8WinBoard Cell.O r' c' ≤ get_winner (setCellB c8WinBoard 0 2 Cell.O) ∧
      ((∀ r₂ c₂ : Nat, r₂ < c8WinBoard.no_rows → c₂ < c8WinBoard.no_columns →
          cellAt c8WinBoard r₂ c₂ = Cell.Empty → (r₂, c₂) ≠ (0, 2) →
          get_winner (setCellB c8WinBoard 0 2 Cell.O) < aiKey c8WinBoard Cell.O r₂ c₂) →
        ai_plays Cell.O c8WinBoard = some (setCellB c8WinBoard 0 2 Cell.O))) :=
  ⟨⟨by decide, by decide, by decide, by decide, by decide⟩,
    claim8_corrected c8WinBoard (by decide) 0 2 (by decide) (by decide)
      (by decide) (by decide)⟩

/-- C10: calling `ai_plays` on a board with no empty cell builds an empty
candidate list, so Python's `min` raises `ValueError` (modelled as `none`)
and the assignment to the committed game board is never executed. -/
theorem claim10_full_board_exception (b : GameBoard) (hwf : wf b) (p : Cell)
    (hfull : is_every_field_filled b = true) :
    possible_states b p = [] ∧ ai_plays p b = none := by
  have hcell : ∀ rc ∈ cellsList b, cellAt b rc.1 rc.2 ≠ Cell.Empty := by
    intro rc hrc
    have hb := (mem_cellsList b rc.1 rc.2).1 hrc
    have hrow : rc.1 < b.game_board.length := by rw [hwf.1]; exact hb.1
    have hrowmem : b.game_board.getD rc.1 [] ∈ b.game_board := getD_mem _ _ _ hrow
    have hcol : rc.2 < (b.game_board.getD rc.1 []).length := by
      rw [hwf.2 _ hrowmem]; exact hb.2
    have hcellmem : cellAt b rc.1 rc.2 ∈ b.game_board.getD rc.1 [] :=
      getD_mem _ _ _ hcol
    simp only [is_every_field_filled, List.all_eq_true] at hfull
    have := hfull _ hrowmem _ hcellmem
    simpa using this
  have hps : possible_states b p = [] := by
    rw [show possible_states b p = (cellsList b).filterMap (fun rc =>
        if cellAt b rc.1 rc.2 = Cell.Empty then
          some (setCellB b rc.1 rc.2 p, aiKey b p rc.1 rc.2)
        else none) from rfl]
    rw [List.filterMap_eq_nil_iff]
    intro rc hrc
    simp [hcell rc hrc]
  exact ⟨hps, by simp [ai_plays, hps, pyMin]⟩

open Cell in
/-- Full 1×1 board. -/
def c10Board : GameBoard := ⟨1, 1, 1, [[X]]⟩

/-- Witness instantiating `claim10_full_board_exception` on a full board. -/
theorem claim10_witness :
    (wf c10Board ∧ is_every_field_filled c10Board = true) ∧
    (possible_states c10Board Cell.O = [] ∧ ai_plays Cell.O c10Board = none) :=
  ⟨⟨by decide, by decide⟩,
    claim10_full_board_exception c10Board (by decide) Cell.O (by decide)⟩

end TicTacToe
